import Mathlib

/-! sparseblob: disjoint sets and sparse connected-component labelling

A shallow embedding of `disjoint_set.c` and `label_region_sparse.c`.

* The two dynamic arrays of a `DisjointSet` are total maps from an index to the word stored
  there; `size` is the capacity field of the structure.  Memory that the C code leaves
  uninitialised (`malloc`, `realloc`, the caller's `labels` buffer) is a parameter.
* The counters `top`, `size` and the entries of `rank` are `unsigned long` in the source and
  natural numbers here: `top` and a rank grow by one per call, and both arrays hold `top`
  words of eight bytes, so none of them reaches `2 ^ 64`.
* `slr_ulong` and `slr_longlong` are the 64-bit types of the build without `IDL`; the
  conversions between them in `label_region_sparse` are taken modulo `2 ^ 64`.
* The outcome of every allocation request is a parameter (`Allocator`, and the two flags of
  `djs_insert`).  The heap blocks at the two pointers of a structure are followed apart, by
  `djs_insert_blocks`.
* A recursion or loop of the source that need not terminate on every state is given fuel and
  returns `none` when the fuel runs out.
-/

namespace Sparseblob

/-! ## disjoint_set.c -/

/-- The `DisjointSet` structure of `disjoint_set.h`. -/
structure DisjointSet where
  parent : Nat → Nat
  rank : Nat → Nat
  top : Nat
  size : Nat

/-- `djs_create`: `mem_ok` tells whether the three `malloc` calls all succeeded; `parent0` and
`rank0` are the uninitialised contents of the two fresh arrays.  `none` is the `NULL` result. -/
def djs_create (size : Nat) (mem_ok : Bool) (parent0 rank0 : Nat → Nat) : Option DisjointSet :=
  if mem_ok then some { parent := parent0, rank := rank0, top := 1, size := size }
  else none

/-- `djs_insert`: `newparent_ok` and `newrank_ok` tell whether the two `realloc` calls return a
non-null pointer; they are consulted only when the arrays have to grow.  The result is the
structure after the call and the returned id (`0` on failure). -/
def djs_insert (set : DisjointSet) (newparent_ok newrank_ok : Bool) : DisjointSet × Nat :=
  if set.top ≥ set.size then
    if !newparent_ok || !newrank_ok then (set, 0)
    else
      let set1 := { set with size := set.size * 2 }
      ({ set1 with parent := Function.update set1.parent set1.top set1.top,
                   rank := Function.update set1.rank set1.top 0,
                   top := set1.top + 1 }, set1.top)
  else
    ({ set with parent := Function.update set.parent set.top set.top,
                rank := Function.update set.rank set.top 0,
                top := set.top + 1 }, set.top)

/-- The recursion of `djs_find`, with fuel for the depth of the call stack. -/
def djs_find_rec : Nat → DisjointSet → Nat → Option (DisjointSet × Nat)
  | 0, _, _ => none
  | fuel + 1, set, x =>
    if x ≥ set.top ∨ x ≤ 0 then some (set, 0)
    else if set.parent x ≠ x then
      match djs_find_rec fuel set (set.parent x) with
      | none => none
      | some (set1, r) =>
        let set2 := { set1 with parent := Function.update set1.parent x r }
        some (set2, set2.parent x)
    else some (set, set.parent x)

/-- `djs_find`.  A chain of parent pointers without a cycle visits at most `top - 1` ids of
`[1, top)` and then makes one more call, so `top + 1` nested calls are enough whenever the C
recursion returns. -/
def djs_find (set : DisjointSet) (x : Nat) : Option (DisjointSet × Nat) :=
  djs_find_rec (set.top + 1) set x

/-- `djs_merge`: the structure after the call and the returned status (`1`: no such sets). -/
def djs_merge (set : DisjointSet) (x y : Nat) : Option (DisjointSet × Int) :=
  if x ≥ set.top ∨ y ≥ set.top ∨ x ≤ 0 ∨ y ≤ 0 then some (set, 1)
  else
    match djs_find set x with
    | none => none
    | some (set1, x1) =>
      match djs_find set1 y with
      | none => none
      | some (set2, y1) =>
        if set2.rank x1 > set2.rank y1 then
          some ({ set2 with parent := Function.update set2.parent y1 x1 }, 0)
        else
          let set3 := { set2 with parent := Function.update set2.parent x1 y1 }
          if set3.rank x1 = set3.rank y1 then
            some ({ set3 with rank := Function.update set3.rank y1 (set3.rank y1 + 1) }, 0)
          else some (set3, 0)

/-- The default number of sets to start with. -/
def N_SETS : Nat := 32

/-- Conversion of an `slr_ulong` to `slr_longlong` (two's complement). -/
def to_longlong (x : Nat) : Int :=
  if x % 2 ^ 64 < 2 ^ 63 then ((x % 2 ^ 64 : Nat) : Int) else ((x % 2 ^ 64 : Nat) : Int) - 2 ^ 64

/-- Conversion of an `slr_longlong` to `slr_ulong`. -/
def to_ulong (z : Int) : Nat :=
  (z % 2 ^ 64).toNat

/-- The `while` loop of `binsearch`, with fuel for the number of iterations.  `low`, `mid` and
`high` stay between `-1` and `size`, so their sums are taken in the integers. -/
def binsearch_loop (arr : List Nat) (find : Nat) : Nat → Int → Int → Option Int
  | 0, _, _ => none
  | fuel + 1, low, high =>
    if low ≤ high then
      let mid := Int.tdiv (low + high) 2
      if arr.getD mid.toNat 0 = find then some mid
      else if arr.getD mid.toNat 0 > find then binsearch_loop arr find fuel low (mid - 1)
      else binsearch_loop arr find fuel (mid + 1) high
    else some (-1)

/-- `binsearch`: `high = size - 1` is an unsigned subtraction converted to `slr_longlong`. -/
def binsearch (arr : List Nat) (find : Nat) (size : Nat) : Option Int :=
  binsearch_loop arr find (size + 1) 0 (to_longlong (to_ulong ((size : Int) - 1)))

/-- The outcome of every allocation request of one call of `label_region_sparse`, and the
contents of the memory that `djs_create` leaves uninitialised.  `newparent_ok i` and
`newrank_ok i` answer the two `realloc` calls of the `djs_insert` made at scan position `i`. -/
structure Allocator where
  sets_ok : Bool
  hood_ok : Bool
  newparent_ok : Nat → Bool
  newrank_ok : Nat → Bool
  map_ok : Bool
  parent0 : Nat → Nat
  rank0 : Nat → Nat

/-- No allocation fails. -/
def Allocator.NoFail (heap : Allocator) : Prop :=
  heap.sets_ok = true ∧ heap.hood_ok = true ∧ (∀ i, heap.newparent_ok i = true) ∧
    (∀ i, heap.newrank_ok i = true) ∧ heap.map_ok = true

/-- The loop over `deltas` (lines 81-83): `hood` holds the entries `[0, counter)` written so
far. -/
def hood_loop (indices : List Nat) (labels : Nat → Nat) (ninds : Nat) (index : Int) :
    List Int → List Nat → Option (List Nat)
  | [], hood => some hood
  | d :: rest, hood =>
    if index ≥ d then
      match binsearch indices (to_ulong (index + d)) ninds with
      | none => none
      | some search =>
        if search ≠ -1 then hood_loop indices labels ninds index rest (hood ++ [labels search.toNat])
        else hood_loop indices labels ninds index rest hood
    else hood_loop indices labels ninds index rest hood

/-- The loop merging `hood[0]` with `hood[1], ..., hood[counter - 1]` (lines 90-94).  The status
is `-1` when the loop left the function through `return -1` and `0` when it ran to its end. -/
def merge_loop (sets : DisjointSet) (hood0 : Nat) : List Nat → Option (DisjointSet × Int)
  | [] => some (sets, 0)
  | h :: rest =>
    match djs_merge sets hood0 h with
    | none => none
    | some (sets1, status) =>
      if status = 1 then some (sets1, -1) else merge_loop sets1 hood0 rest

/-- The variables of `label_region_sparse` that live across the first pass. -/
structure Scan where
  sets : DisjointSet
  labels : Nat → Nat

/-- The body of the first loop at scan position `i`.  The second component is the value
returned by the function when the body leaves it, and `none` when the loop goes on. -/
def scan_step (indices : List Nat) (deltas : List Int) (heap : Allocator) (i : Nat) (st : Scan) :
    Option (Scan × Option Int) :=
  let index := to_longlong (indices.getD i 0)
  match hood_loop indices st.labels indices.length index deltas [] with
  | none => none
  | some [] =>
    let r := djs_insert st.sets (heap.newparent_ok i) (heap.newrank_ok i)
    let st1 : Scan := { sets := r.1, labels := Function.update st.labels i r.2 }
    if r.2 = 0 then some (st1, some 1) else some (st1, none)
  | some (hood0 :: rest) =>
    let labels1 := Function.update st.labels i hood0
    match merge_loop st.sets hood0 rest with
    | none => none
    | some (sets1, status) =>
      if status = -1 then some ({ sets := sets1, labels := labels1 }, some (-1))
      else some ({ sets := sets1, labels := labels1 }, none)

/-- The first loop, from scan position `i`, for `k` more positions. -/
def scan_loop (indices : List Nat) (deltas : List Int) (heap : Allocator) :
    Nat → Nat → Scan → Option (Scan × Option Int)
  | 0, _, st => some (st, none)
  | k + 1, i, st =>
    match scan_step indices deltas heap i st with
    | none => none
    | some (st1, some code) => some (st1, some code)
    | some (st1, none) => scan_loop indices deltas heap k (i + 1) st1

/-- The variables of the second pass. -/
structure Pack where
  sets : DisjointSet
  labels : Nat → Nat
  map : Nat → Nat
  counter : Nat

/-- The body of the second loop at position `i` (lines 121-125). -/
def pack_step (i : Nat) (st : Pack) : Option Pack :=
  match djs_find st.sets (st.labels i) with
  | none => none
  | some (sets1, j) =>
    if st.map j = 0 then
      let map1 := Function.update st.map j st.counter
      some { sets := sets1, labels := Function.update st.labels i (map1 j), map := map1,
             counter := st.counter + 1 }
    else
      some { sets := sets1, labels := Function.update st.labels i (st.map j), map := st.map,
             counter := st.counter }

/-- The second loop, from position `i`, for `k` more positions. -/
def pack_loop : Nat → Nat → Pack → Option Pack
  | 0, _, st => some st
  | k + 1, i, st =>
    match pack_step i st with
    | none => none
    | some st1 => pack_loop k (i + 1) st1

/-- The first pass of `label_region_sparse` on a fresh structure of `N_SETS` sets. -/
def first_pass (indices : List Nat) (labels0 : Nat → Nat) (deltas : List Int) (heap : Allocator)
    (sets : DisjointSet) : Option (Scan × Option Int) :=
  scan_loop indices deltas heap indices.length 0 { sets := sets, labels := labels0 }

/-- The second pass: `map` is the zeroed array of `calloc`, `counter` starts at `1`. -/
def second_pass (ninds : Nat) (st : Scan) : Option Pack :=
  pack_loop ninds 0 { sets := st.sets, labels := st.labels, map := fun _ => 0, counter := 1 }

/-- The contents of `labels[0 .. ninds)`. -/
def read_labels (ninds : Nat) (labels : Nat → Nat) : List Nat :=
  (List.range ninds).map labels

/-- `label_region_sparse`: `labels0` is what the caller's `labels` buffer holds on entry; the
result is the returned status and the contents of `labels[0 .. ninds)` on return. -/
def label_region_sparse (indices : List Nat) (labels0 : Nat → Nat) (deltas : List Int)
    (heap : Allocator) : Option (Int × List Nat) :=
  match djs_create N_SETS heap.sets_ok heap.parent0 heap.rank0, heap.hood_ok with
  | some sets, true =>
    match first_pass indices labels0 deltas heap sets with
    | none => none
    | some (st, some code) => some (code, read_labels indices.length st.labels)
    | some (st, none) =>
      if heap.map_ok then
        match second_pass indices.length st with
        | none => none
        | some st1 => some (0, read_labels indices.length st1.labels)
      else some (1, read_labels indices.length st.labels)
  | _, _ => some (1, read_labels indices.length labels0)

/-- An allocator on which every request succeeds and fresh memory reads as `junk`. -/
def Allocator.plenty (junk : Nat) : Allocator :=
  { sets_ok := true, hood_ok := true, newparent_ok := fun _ => true, newrank_ok := fun _ => true,
    map_ok := true, parent0 := fun _ => junk, rank0 := fun _ => junk }

/-! ## Specification vocabulary -/

/-- The well-formedness of a structure: a parent pointer of an id of `[1, top)` stays in
`[1, top)` and leads to a strictly larger rank unless the id is a root. -/
def DisjointSet.Inv (s : DisjointSet) : Prop :=
  ∀ x, 1 ≤ x → x < s.top →
    1 ≤ s.parent x ∧ s.parent x < s.top ∧ (s.parent x ≠ x → s.rank x < s.rank (s.parent x))

/-- The representative of `x`: the id reached by following `top` parent pointers from an id of
`[1, top)`, and `0` for any other `x`. -/
def rep (s : DisjointSet) (x : Nat) : Nat :=
  if 1 ≤ x ∧ x < s.top then s.parent^[s.top] x else 0

/-- The structure `s1` arises from `s` by path compression: nothing changes but parent
pointers of ids of `[1, top)`, which may now point at the representative. -/
def Compressed (s s1 : DisjointSet) : Prop :=
  s1.rank = s.rank ∧ s1.top = s.top ∧ s1.size = s.size ∧
    (∀ y, ¬ (1 ≤ y ∧ y < s.top) → s1.parent y = s.parent y) ∧
    ∀ y, 1 ≤ y → y < s.top → s1.parent y = s.parent y ∨ s1.parent y = rep s y

/-- The structures that a call of `djs_create` followed by any sequence of `djs_insert`,
`djs_find` and `djs_merge` calls produces. -/
inductive Reachable : DisjointSet → Prop
  | create (size : Nat) (mem_ok : Bool) (parent0 rank0 : Nat → Nat) (s : DisjointSet) :
      djs_create size mem_ok parent0 rank0 = some s → Reachable s
  | insert (s : DisjointSet) (newparent_ok newrank_ok : Bool) :
      Reachable s → Reachable (djs_insert s newparent_ok newrank_ok).1
  | find (s s1 : DisjointSet) (x r : Nat) :
      Reachable s → djs_find s x = some (s1, r) → Reachable s1
  | merge (s s1 : DisjointSet) (x y : Nat) (status : Int) :
      Reachable s → djs_merge s x y = some (s1, status) → Reachable s1

/-- A structure of capacity one after two inserts, the first of which grows the arrays. -/
def two_sets : DisjointSet :=
  (djs_insert (djs_insert { parent := fun _ => 7, rank := fun _ => 7, top := 1, size := 1 }
    true true).1 true true).1

/-- Positions `p` and `q` are linked: `indices[q] + d = indices[p]` for some delta `d`. -/
def Edge (indices : List Nat) (deltas : List Int) (p q : Nat) : Prop :=
  p < indices.length ∧ q < indices.length ∧
    ∃ d, d ∈ deltas ∧ (indices.getD q 0 : Int) + d = (indices.getD p 0 : Int)

/-- Positions `a` and `b` are connected in the undirected graph of the links. -/
def Connected (indices : List Nat) (deltas : List Int) (a b : Nat) : Prop :=
  Relation.EqvGen (Edge indices deltas) a b

/-- Connected through links between positions below `k` only. -/
def ConnectedBelow (indices : List Nat) (deltas : List Int) (k : Nat) (a b : Nat) : Prop :=
  Relation.EqvGen (fun p q => Edge indices deltas p q ∧ q < k) a b

/-- The preconditions of `label_region_sparse`: `indices` strictly ascending with every value
below `2 ^ 63`, and every delta a strictly negative `slr_longlong`. -/
def Pre (indices : List Nat) (deltas : List Int) : Prop :=
  (∀ i j, i < j → j < indices.length → indices.getD i 0 < indices.getD j 0) ∧
  (∀ i, i < indices.length → indices.getD i 0 < 2 ^ 63) ∧
  (∀ d, d ∈ deltas → -2 ^ 63 ≤ d ∧ d < 0)

/-- The invariant of the first loop before scan position `i`: the structure is well formed,
the labels written so far are ids of `[1, top)`, two of them have the same representative
exactly when their positions are connected through positions below `i`, and every id is the
label of some position. -/
def ScanInv (indices : List Nat) (deltas : List Int) (i : Nat) (st : Scan) : Prop :=
  st.sets.Inv ∧ 1 ≤ st.sets.top ∧
  (∀ p, p < i → 1 ≤ st.labels p ∧ st.labels p < st.sets.top) ∧
  (∀ p q, p < i → q < i →
    (rep st.sets (st.labels p) = rep st.sets (st.labels q) ↔
      ConnectedBelow indices deltas i p q)) ∧
  (∀ id, 1 ≤ id → id < st.sets.top → ∃ p, p < i ∧ st.labels p = id)

/-- The largest value among `f 0, ..., f (p - 1)`, and `0` when `p = 0`. -/
def max_below (f : Nat → Nat) : Nat → Nat
  | 0 => 0
  | p + 1 => max (max_below f p) (f p)

/-- The invariant of the second loop before position `i`, for the structure `s` and the labels
`L` that the first pass left: the structure differs from `s` by path compression only; the
labels from `i` on are untouched and those below `i` are the `map` entries of their
representatives; `map` is non-zero exactly on the representatives seen so far, one-to-one
there, and takes every value of `[1, counter)`; `counter` is one more than the largest label
written; and a label exceeds all earlier ones exactly when its representative was new. -/
def PackInv (s : DisjointSet) (L : Nat → Nat) (i : Nat) (pk : Pack) : Prop :=
  Compressed s pk.sets ∧
  (∀ p, i ≤ p → pk.labels p = L p) ∧
  (∀ p, p < i → pk.labels p = pk.map (rep s (L p)) ∧ pk.map (rep s (L p)) ≠ 0) ∧
  (∀ r, pk.map r ≠ 0 → ∃ p, p < i ∧ rep s (L p) = r) ∧
  (∀ r r1, pk.map r ≠ 0 → pk.map r = pk.map r1 → r = r1) ∧
  pk.counter = 1 + max_below pk.labels i ∧
  (∀ r, pk.map r < pk.counter) ∧
  (∀ v, 1 ≤ v → v < pk.counter → ∃ r, pk.map r = v) ∧
  (∀ p, p < i → pk.labels p ≤ 1 + max_below pk.labels p ∧
    (pk.labels p = 1 + max_below pk.labels p ↔ ∀ q, q < p → rep s (L q) ≠ rep s (L p)))

/-- The number of regions of a structure: the number of distinct representatives of the ids of
`[1, top)`. -/
def region_count (s : DisjointSet) : Nat :=
  ((Finset.Ico 1 s.top).image (rep s)).card

/-- The index list of the 1D scenario. -/
def line_indices : List Nat := [0, 1, 2, 5, 6, 10]

/-- The delta list of the 1D scenario. -/
def line_deltas : List Int := [-1]

/-- The indices of the 3x3 block of a grid of width `W` with row origin `r` and column origin
`c`, in ascending order: `W * (r + a) + c + b` for `a, b` in `{0, 1, 2}`. -/
def block3x3 (W r c : Nat) : List Nat :=
  [W * (r + 0) + c + 0, W * (r + 0) + c + 1, W * (r + 0) + c + 2,
   W * (r + 1) + c + 0, W * (r + 1) + c + 1, W * (r + 1) + c + 2,
   W * (r + 2) + c + 0, W * (r + 2) + c + 1, W * (r + 2) + c + 2]

/-- The values of `mid` at which the loop of `binsearch` reads `arr[mid]`, in the order of the
iterations. -/
def binsearch_loop_mids (arr : List Nat) (find : Nat) : Nat → Int → Int → List Int
  | 0, _, _ => []
  | fuel + 1, low, high =>
    if low ≤ high then
      let mid := Int.tdiv (low + high) 2
      if arr.getD mid.toNat 0 = find then [mid]
      else if arr.getD mid.toNat 0 > find then
        mid :: binsearch_loop_mids arr find fuel low (mid - 1)
      else mid :: binsearch_loop_mids arr find fuel (mid + 1) high
    else []

/-- The array reads of `binsearch`. -/
def binsearch_mids (arr : List Nat) (find : Nat) (size : Nat) : List Int :=
  binsearch_loop_mids arr find (size + 1) 0 (to_longlong (to_ulong ((size : Int) - 1)))

/-- What a call of `realloc` answers: `NULL`, the old block staying as it is; the address it
was given, the block having been resized in place; or a new address, the contents having been
copied and the old block freed. -/
inductive Realloc where
  | null
  | same
  | moved
  deriving DecidableEq

/-- Whether the answer of `realloc` is a non-null pointer. -/
def Realloc.ok : Realloc → Bool
  | Realloc.null => false
  | Realloc.same => true
  | Realloc.moved => true

/-- The heap blocks at the addresses stored in `set->parent` and `set->rank`: the number of
words of each block, and whether the address is still that of an allocated block. -/
structure Blocks where
  parent_len : Nat
  rank_len : Nat
  parent_live : Bool
  rank_live : Bool
  deriving DecidableEq

/-- The block at an address after `realloc` was called on it for `n` words and the address was
not replaced by the answer. -/
def stale_block (len : Nat) (live : Bool) (n : Nat) : Realloc → Nat × Bool
  | Realloc.null => (len, live)
  | Realloc.same => (n, live)
  | Realloc.moved => (len, false)

/-- The heap side of `djs_insert` (lines 64-73): the blocks at `set->parent` and `set->rank`
after the call.  The two pointers are replaced by the answers of `realloc` only when both
answers are non-null. -/
def djs_insert_blocks (set : DisjointSet) (blocks : Blocks) (newparent newrank : Realloc) :
    Blocks :=
  if set.top ≥ set.size then
    if !newparent.ok || !newrank.ok then
      { parent_len := (stale_block blocks.parent_len blocks.parent_live (set.size * 2) newparent).1,
        rank_len := (stale_block blocks.rank_len blocks.rank_live (set.size * 2) newrank).1,
        parent_live :=
          (stale_block blocks.parent_len blocks.parent_live (set.size * 2) newparent).2,
        rank_live := (stale_block blocks.rank_len blocks.rank_live (set.size * 2) newrank).2 }
    else
      { parent_len := set.size * 2, rank_len := set.size * 2,
        parent_live := blocks.parent_live, rank_live := blocks.rank_live }
  else blocks

/-- The structure after the call `djs_merge(s, x, y)`. -/
def merged (s : DisjointSet) (x y : Nat) : DisjointSet :=
  match djs_merge s x y with
  | some (s1, _) => s1
  | none => s

/-- A structure of capacity five after four inserts and the calls `djs_merge(1, 2)`,
`djs_merge(3, 4)`, `djs_merge(1, 3)`: the ids form the parent chain `1 → 2 → 4` with
`3 → 4`, the root `4` has rank `2`, and `top = size = 5`, so the arrays are full. -/
def chain_sets : DisjointSet :=
  merged (merged (merged
    (djs_insert (djs_insert (djs_insert (djs_insert
      { parent := fun _ => 7, rank := fun _ => 7, top := 1, size := 5 }
      true true).1 true true).1 true true).1 true true).1 1 2) 3 4) 1 3

/-- Three cells of a grid of width ten: `(0, 1)`, `(1, 0)` and `(1, 1)`.  The first two are
not linked to each other and the third is linked to both. -/
def corner_indices : List Nat := [1, 10, 11]

/-- The deltas of the left and the upper neighbour in a grid of width ten. -/
def grid_deltas : List Int := [-1, -10]

end Sparseblob


namespace Sparseblob

/-! ## Parent chains -/

theorem iterate_valid {s : DisjointSet} (hs : s.Inv) {x : Nat} (h1 : 1 ≤ x) (h2 : x < s.top)
    (k : Nat) : 1 ≤ s.parent^[k] x ∧ s.parent^[k] x < s.top := by
  induction k with
  | zero => exact ⟨h1, h2⟩
  | succ k ih =>
    rw [Function.iterate_succ_apply']
    exact ⟨(hs _ ih.1 ih.2).1, (hs _ ih.1 ih.2).2.1⟩

theorem rank_iterate_le {s : DisjointSet} (hs : s.Inv) {x : Nat} (h1 : 1 ≤ x) (h2 : x < s.top)
    (k : Nat) : s.rank x ≤ s.rank (s.parent^[k] x) := by
  induction k with
  | zero => exact le_refl _
  | succ k ih =>
    rw [Function.iterate_succ_apply']
    have hv := iterate_valid hs h1 h2 k
    by_cases hfix : s.parent (s.parent^[k] x) = s.parent^[k] x
    · rw [hfix]; exact ih
    · exact le_trans ih (le_of_lt ((hs _ hv.1 hv.2).2.2 hfix))

theorem rank_iterate_lt {s : DisjointSet} (hs : s.Inv) {x : Nat} (h1 : 1 ≤ x) (h2 : x < s.top)
    (n : Nat) (hn : ∀ m, m < n → s.parent (s.parent^[m] x) ≠ s.parent^[m] x) :
    ∀ j, j ≤ n → ∀ i, i < j → s.rank (s.parent^[i] x) < s.rank (s.parent^[j] x) := by
  intro j
  induction j with
  | zero => intro _ i hi; omega
  | succ j ih =>
    intro hj i hi
    have hv := iterate_valid hs h1 h2 j
    have hstep : s.rank (s.parent^[j] x) < s.rank (s.parent^[j + 1] x) := by
      rw [Function.iterate_succ_apply']
      exact (hs _ hv.1 hv.2).2.2 (hn j (by omega))
    by_cases hij : i = j
    · subst hij; exact hstep
    · exact lt_trans (ih (by omega) i (by omega)) hstep

/-- Every id of `[1, top)` reaches a root within fewer than `top` steps. -/
theorem exists_root {s : DisjointSet} (hs : s.Inv) {x : Nat} (h1 : 1 ≤ x) (h2 : x < s.top) :
    ∃ k, k < s.top ∧ s.parent (s.parent^[k] x) = s.parent^[k] x := by
  by_contra hcon
  push_neg at hcon
  have hmaps : ∀ j ∈ Finset.range s.top, s.parent^[j] x ∈ Finset.Ico 1 s.top := by
    intro j _
    have := iterate_valid hs h1 h2 j
    exact Finset.mem_Ico.mpr this
  have hcard : (Finset.Ico 1 s.top).card < (Finset.range s.top).card := by
    simp only [Nat.card_Ico, Finset.card_range]; omega
  obtain ⟨i, hi, j, hj, hne, heq⟩ := Finset.exists_ne_map_eq_of_card_lt_of_maps_to hcard hmaps
  have hi' := Finset.mem_range.mp hi
  have hj' := Finset.mem_range.mp hj
  have key := rank_iterate_lt hs h1 h2 s.top (fun m hm => hcon m hm)
  rcases Nat.lt_or_gt_of_ne hne with h | h
  · have := key j (le_of_lt hj') i h
    rw [heq] at this; exact lt_irrefl _ this
  · have := key i (le_of_lt hi') j h
    rw [heq] at this; exact lt_irrefl _ this

theorem iterate_of_root {p : Nat → Nat} {x : Nat} {k : Nat} (hk : p (p^[k] x) = p^[k] x) :
    ∀ m, k ≤ m → p^[m] x = p^[k] x := by
  intro m hm
  obtain ⟨d, rfl⟩ := Nat.exists_eq_add_of_le hm
  rw [Nat.add_comm, Function.iterate_add_apply, Function.iterate_fixed hk]

/-- A root reached from `x` is the representative of `x`. -/
theorem rep_eq_of_reaches {s : DisjointSet} (hs : s.Inv) {x : Nat} (h1 : 1 ≤ x) (h2 : x < s.top)
    {r : Nat} {k : Nat} (hk : s.parent^[k] x = r) (hr : s.parent r = r) : rep s x = r := by
  obtain ⟨k0, hk0, hroot⟩ := exists_root hs h1 h2
  have hr' : s.parent (s.parent^[k] x) = s.parent^[k] x := by rw [hk]; exact hr
  have e1 := iterate_of_root hroot (max k k0) (le_max_right _ _)
  have e2 := iterate_of_root hr' (max k k0) (le_max_left _ _)
  have e3 := iterate_of_root hroot s.top (le_of_lt hk0)
  unfold rep
  rw [if_pos ⟨h1, h2⟩, e3, ← e1, e2, hk]

theorem rep_spec {s : DisjointSet} (hs : s.Inv) {x : Nat} (h1 : 1 ≤ x) (h2 : x < s.top) :
    (1 ≤ rep s x ∧ rep s x < s.top) ∧ s.parent (rep s x) = rep s x ∧
      ∃ k, k < s.top ∧ s.parent^[k] x = rep s x := by
  obtain ⟨k0, hk0, hroot⟩ := exists_root hs h1 h2
  have e := rep_eq_of_reaches hs h1 h2 rfl hroot
  rw [e]
  exact ⟨iterate_valid hs h1 h2 k0, hroot, k0, hk0, rfl⟩

theorem rep_of_invalid {s : DisjointSet} {x : Nat} (h : ¬ (1 ≤ x ∧ x < s.top)) : rep s x = 0 := by
  unfold rep; rw [if_neg h]

theorem rep_of_root {s : DisjointSet} (hs : s.Inv) {r : Nat} (h1 : 1 ≤ r) (h2 : r < s.top)
    (hr : s.parent r = r) : rep s r = r :=
  rep_eq_of_reaches (k := 0) hs h1 h2 rfl hr

theorem rep_rep {s : DisjointSet} (hs : s.Inv) {x : Nat} (h1 : 1 ≤ x) (h2 : x < s.top) :
    rep s (rep s x) = rep s x :=
  let h := rep_spec hs h1 h2
  rep_of_root hs h.1.1 h.1.2 h.2.1

theorem rep_parent {s : DisjointSet} (hs : s.Inv) {x : Nat} (h1 : 1 ≤ x) (h2 : x < s.top) :
    rep s (s.parent x) = rep s x := by
  obtain ⟨hv, hroot, k, _, hk⟩ := rep_spec hs (hs x h1 h2).1 (hs x h1 h2).2.1
  symm
  refine rep_eq_of_reaches (k := k + 1) hs h1 h2 ?_ hroot
  rw [Function.iterate_succ_apply]; exact hk

theorem rep_iterate {s : DisjointSet} (hs : s.Inv) {x : Nat} (h1 : 1 ≤ x) (h2 : x < s.top)
    (k : Nat) : rep s (s.parent^[k] x) = rep s x := by
  induction k with
  | zero => rfl
  | succ k ih =>
    rw [Function.iterate_succ_apply']
    have hv := iterate_valid hs h1 h2 k
    rw [rep_parent hs hv.1 hv.2, ih]

theorem rank_lt_rep {s : DisjointSet} (hs : s.Inv) {x : Nat} (h1 : 1 ≤ x) (h2 : x < s.top)
    (hne : rep s x ≠ x) : s.rank x < s.rank (rep s x) := by
  have hpx : s.parent x ≠ x := by
    intro hfix
    exact hne (rep_of_root hs h1 h2 hfix)
  have hv := hs x h1 h2
  obtain ⟨_, _, k, _, hk⟩ := rep_spec hs hv.1 hv.2.1
  have := rank_iterate_le hs hv.1 hv.2.1 k
  rw [hk, rep_parent hs h1 h2] at this
  exact lt_of_lt_of_le (hv.2.2 hpx) this

/-! ## djs_find -/

theorem find_rec_invalid (s : DisjointSet) (x : Nat) (h : ¬ (1 ≤ x ∧ x < s.top)) (n : Nat) :
    djs_find_rec (n + 1) s x = some (s, 0) := by
  have h' : x ≥ s.top ∨ x ≤ 0 := by omega
  simp only [djs_find_rec, if_pos h']

/-- More fuel does not change a result of the recursion. -/
theorem find_rec_fuel (s : DisjointSet) :
    ∀ (n x : Nat) (r : DisjointSet × Nat), djs_find_rec n s x = some r →
      djs_find_rec (n + 1) s x = some r := by
  intro n
  induction n with
  | zero => intro x r h; simp only [djs_find_rec] at h; cases h
  | succ n ih =>
    intro x r h
    by_cases hr : x ≥ s.top ∨ x ≤ 0
    · simp only [djs_find_rec, if_pos hr] at h ⊢
      exact h
    · by_cases hp : s.parent x ≠ x
      · cases hrec : djs_find_rec n s (s.parent x) with
        | none =>
          rw [djs_find_rec, if_neg hr, if_pos hp, hrec] at h
          cases h
        | some t =>
          rw [djs_find_rec, if_neg hr, if_pos hp, hrec] at h
          rw [djs_find_rec, if_neg hr, if_pos hp, ih _ _ hrec]
          exact h
      · rw [djs_find_rec, if_neg hr, if_neg hp] at h ⊢
        exact h

theorem find_rec_spec {s : DisjointSet} (hs : s.Inv) :
    ∀ k x n, 1 ≤ x → x < s.top → s.parent (s.parent^[k] x) = s.parent^[k] x → k < n →
      ∃ s1, djs_find_rec n s x = some (s1, s.parent^[k] x) ∧ s1.rank = s.rank ∧
        s1.top = s.top ∧ s1.size = s.size ∧
        (∀ y, (∃ j, s.parent^[j] x = y) → s1.parent y = s.parent^[k] x) ∧
        (∀ y, (¬ ∃ j, s.parent^[j] x = y) → s1.parent y = s.parent y) := by
  intro k
  induction k with
  | zero =>
    intro x n h1 h2 hroot hn
    obtain ⟨m, rfl⟩ := Nat.exists_eq_succ_of_ne_zero (Nat.pos_iff_ne_zero.mp hn)
    have hroot' : s.parent x = x := hroot
    have hr : ¬ (x ≥ s.top ∨ x ≤ 0) := by omega
    refine ⟨s, ?_, rfl, rfl, rfl, ?_, fun _ _ => rfl⟩
    · simp only [djs_find_rec, if_neg hr, hroot', ne_eq, not_true_eq_false, if_false,
        Function.iterate_zero, id_eq]
    · rintro y ⟨j, rfl⟩
      rw [Function.iterate_fixed hroot', Function.iterate_zero, id_eq]
      exact hroot'
  | succ k ih =>
    intro x n h1 h2 hroot hn
    obtain ⟨m, rfl⟩ := Nat.exists_eq_succ_of_ne_zero (Nat.pos_iff_ne_zero.mp (Nat.lt_of_le_of_lt (Nat.zero_le _) hn))
    have hr : ¬ (x ≥ s.top ∨ x ≤ 0) := by omega
    by_cases hfix : s.parent x = x
    · have hall : ∀ j, s.parent^[j] x = x := fun j => Function.iterate_fixed hfix j
      refine ⟨s, ?_, rfl, rfl, rfl, ?_, fun _ _ => rfl⟩
      · simp only [djs_find_rec, if_neg hr, hfix, ne_eq, not_true_eq_false, if_false, hall]
      · rintro y ⟨j, rfl⟩
        rw [hall, hall]; exact hfix
    · have hv := hs x h1 h2
      have hroot2 : s.parent (s.parent^[k] (s.parent x)) = s.parent^[k] (s.parent x) := by
        rw [← Function.iterate_succ_apply]; exact hroot
      obtain ⟨s1, hrec, hrank, htop, hsize, hpath, hoff⟩ :=
        ih (s.parent x) m hv.1 hv.2.1 hroot2 (by omega)
      refine ⟨{ s1 with parent := Function.update s1.parent x (s.parent^[k] (s.parent x)) },
        ?_, hrank, htop, hsize, ?_, ?_⟩
      · simp only [djs_find_rec, if_neg hr, ne_eq, hfix, not_false_eq_true, if_true, hrec,
          Function.update_same, Function.iterate_succ_apply]
      · rintro y ⟨j, rfl⟩
        rw [Function.iterate_succ_apply]
        by_cases hy : s.parent^[j] x = x
        · show Function.update s1.parent x _ (s.parent^[j] x) = _
          rw [hy, Function.update_same]
        · show Function.update s1.parent x _ (s.parent^[j] x) = _
          rw [Function.update_noteq hy]
          cases j with
          | zero => exact absurd rfl hy
          | succ j =>
            exact hpath _ ⟨j, by rw [Function.iterate_succ_apply]⟩
      · intro y hy
        have hyx : y ≠ x := fun e => hy ⟨0, e.symm⟩
        show Function.update s1.parent x _ y = _
        rw [Function.update_noteq hyx]
        apply hoff
        rintro ⟨j, hj⟩
        exact hy ⟨j + 1, by rw [Function.iterate_succ_apply]; exact hj⟩

/-- What `djs_find` does on a well-formed structure. -/
theorem find_spec {s : DisjointSet} (hs : s.Inv) {x : Nat} (h1 : 1 ≤ x) (h2 : x < s.top) :
    ∃ s1, djs_find s x = some (s1, rep s x) ∧ s1.rank = s.rank ∧ s1.top = s.top ∧
      s1.size = s.size ∧ (∀ y, (∃ j, s.parent^[j] x = y) → s1.parent y = rep s x) ∧
      (∀ y, (¬ ∃ j, s.parent^[j] x = y) → s1.parent y = s.parent y) := by
  obtain ⟨_, _, k, hk, hrep⟩ := rep_spec hs h1 h2
  have hroot : s.parent (s.parent^[k] x) = s.parent^[k] x := by
    rw [hrep]; exact (rep_spec hs h1 h2).2.1
  have := find_rec_spec hs k x (s.top + 1) h1 h2 hroot (by omega)
  rw [hrep] at this
  exact this

theorem find_invalid (s : DisjointSet) (x : Nat) (h : ¬ (1 ≤ x ∧ x < s.top)) :
    djs_find s x = some (s, 0) :=
  find_rec_invalid s x h s.top

theorem find_compressed {s : DisjointSet} (hs : s.Inv) (x : Nat) :
    ∃ s1, djs_find s x = some (s1, rep s x) ∧ Compressed s s1 := by
  by_cases hx : 1 ≤ x ∧ x < s.top
  · obtain ⟨s1, hfind, hrank, htop, hsize, hpath, hoff⟩ := find_spec hs hx.1 hx.2
    refine ⟨s1, hfind, hrank, htop, hsize, ?_, ?_⟩
    · intro y hy
      apply hoff
      rintro ⟨j, rfl⟩
      exact hy (iterate_valid hs hx.1 hx.2 j)
    · intro y _ _
      by_cases hy : ∃ j, s.parent^[j] x = y
      · right
        obtain ⟨j, rfl⟩ := hy
        rw [hpath _ ⟨j, rfl⟩, rep_iterate hs hx.1 hx.2]
      · left; exact hoff y hy
  · refine ⟨s, ?_, rfl, rfl, rfl, fun _ _ => rfl, fun _ _ _ => Or.inl rfl⟩
    rw [rep_of_invalid hx]
    exact find_invalid s x hx

theorem compressed_inv {s s1 : DisjointSet} (hs : s.Inv) (hc : Compressed s s1) : s1.Inv := by
  obtain ⟨hrank, htop, _, _, hpar⟩ := hc
  intro y h1 h2
  rw [htop] at h2
  rw [hrank, htop]
  rcases hpar y h1 h2 with h | h
  · rw [h]; exact hs y h1 h2
  · rw [h]
    have := rep_spec hs h1 h2
    exact ⟨this.1.1, this.1.2, fun hne => rank_lt_rep hs h1 h2 hne⟩

theorem compressed_rep {s s1 : DisjointSet} (hs : s.Inv) (hc : Compressed s s1) (y : Nat) :
    rep s1 y = rep s y := by
  have hs1 := compressed_inv hs hc
  obtain ⟨hrank, htop, _, _, hpar⟩ := hc
  by_cases hy : 1 ≤ y ∧ y < s.top
  · have hreach : ∀ k y, 1 ≤ y → y < s.top → s.parent^[k] y = rep s y →
        ∃ k1, s1.parent^[k1] y = rep s y := by
      intro k
      induction k with
      | zero => intro y _ _ h; exact ⟨0, h⟩
      | succ k ih =>
        intro y h1 h2 h
        rcases hpar y h1 h2 with e | e
        · have hv := hs y h1 h2
          rw [Function.iterate_succ_apply, ← rep_parent hs h1 h2] at h
          obtain ⟨k1, hk1⟩ := ih (s.parent y) hv.1 hv.2.1 h
          refine ⟨k1 + 1, ?_⟩
          rw [Function.iterate_succ_apply, e, hk1, rep_parent hs h1 h2]
        · exact ⟨1, by rw [Function.iterate_one]; exact e⟩
    obtain ⟨hv, hroot, k, _, hk⟩ := rep_spec hs hy.1 hy.2
    obtain ⟨k1, hk1⟩ := hreach k y hy.1 hy.2 hk
    have hroot1 : s1.parent (rep s y) = rep s y := by
      rcases hpar _ hv.1 hv.2 with e | e
      · rw [e]; exact hroot
      · rw [e]; exact rep_rep hs hy.1 hy.2
    exact rep_eq_of_reaches hs1 hy.1 (by rw [htop]; exact hy.2) hk1 hroot1
  · rw [rep_of_invalid hy, rep_of_invalid (by rw [htop]; exact hy)]

theorem compressed_refl (s : DisjointSet) : Compressed s s :=
  ⟨rfl, rfl, rfl, fun _ _ => rfl, fun _ _ _ => Or.inl rfl⟩

theorem compressed_trans {s s1 s2 : DisjointSet} (hs : s.Inv) (h1 : Compressed s s1)
    (h2 : Compressed s1 s2) : Compressed s s2 := by
  have hrep := compressed_rep hs h1
  obtain ⟨r1, t1, z1, o1, p1⟩ := h1
  obtain ⟨r2, t2, z2, o2, p2⟩ := h2
  refine ⟨r2.trans r1, t2.trans t1, z2.trans z1, ?_, ?_⟩
  · intro y hy
    rw [o2 y (by rw [t1]; exact hy), o1 y hy]
  · intro y hy1 hy2
    rcases p2 y hy1 (by rw [t1]; exact hy2) with e | e
    · rw [e]; exact p1 y hy1 hy2
    · right; rw [e, hrep]

theorem compressed_root {s s1 : DisjointSet} (hs : s.Inv) (hc : Compressed s s1) {r : Nat}
    (h1 : 1 ≤ r) (h2 : r < s.top) (hr : s.parent r = r) : s1.parent r = r := by
  rcases hc.2.2.2.2 r h1 h2 with e | e
  · rw [e]; exact hr
  · rw [e]; exact rep_of_root hs h1 h2 hr

/-! ## djs_insert -/

theorem iterate_congr {p q : Nat → Nat} {y : Nat} :
    ∀ k, (∀ j, j < k → q (p^[j] y) = p (p^[j] y)) → q^[k] y = p^[k] y := by
  intro k
  induction k with
  | zero => intro _; rfl
  | succ k ih =>
    intro h
    rw [Function.iterate_succ_apply', Function.iterate_succ_apply',
      ih (fun j hj => h j (by omega)), h k (by omega)]

/-- Representatives survive any change of the structure that keeps the parent pointers of the
ids of `[1, top)`. -/
theorem rep_of_agree {s s1 : DisjointSet} (hs : s.Inv) (hs1 : s1.Inv) (htop : s.top ≤ s1.top)
    (hag : ∀ y, 1 ≤ y → y < s.top → s1.parent y = s.parent y) {y : Nat} (h1 : 1 ≤ y)
    (h2 : y < s.top) : rep s1 y = rep s y := by
  obtain ⟨hv, hroot, k, _, hk⟩ := rep_spec hs h1 h2
  refine rep_eq_of_reaches hs1 h1 (by omega) (k := k) ?_ ?_
  · rw [iterate_congr k (fun j _ => hag _ (iterate_valid hs h1 h2 j).1 (iterate_valid hs h1 h2 j).2)]
    exact hk
  · rw [hag _ hv.1 hv.2]; exact hroot

theorem insert_cases (s : DisjointSet) (a b : Bool) :
    (djs_insert s a b = (s, 0) ∧ s.size ≤ s.top ∧ (a = false ∨ b = false)) ∨
    ((djs_insert s a b).2 = s.top ∧
      (djs_insert s a b).1.parent = Function.update s.parent s.top s.top ∧
      (djs_insert s a b).1.rank = Function.update s.rank s.top 0 ∧
      (djs_insert s a b).1.top = s.top + 1 ∧
      ((s.top < s.size ∧ (djs_insert s a b).1.size = s.size) ∨
        (s.size ≤ s.top ∧ a = true ∧ b = true ∧ (djs_insert s a b).1.size = s.size * 2))) := by
  unfold djs_insert
  by_cases h : s.top ≥ s.size
  · rw [if_pos h]
    cases a <;> cases b <;> simp [h]
  · rw [if_neg h]
    right
    exact ⟨rfl, rfl, rfl, rfl, Or.inl ⟨by omega, rfl⟩⟩

theorem insert_inv {s : DisjointSet} (hs : s.Inv) (a b : Bool) : (djs_insert s a b).1.Inv := by
  rcases insert_cases s a b with ⟨e, _⟩ | ⟨_, hp, hr, ht, _⟩
  · rw [e]; exact hs
  · intro y h1 h2
    rw [hp, hr, ht]
    rw [ht] at h2
    by_cases hy : y = s.top
    · subst hy
      simp only [Function.update_same, ne_eq, not_true_eq_false, false_implies, and_true]
      omega
    · have hlt : y < s.top := by omega
      have hv := hs y h1 hlt
      have hpy : s.parent y ≠ s.top := by omega
      rw [Function.update_noteq hy, Function.update_noteq hy, Function.update_noteq hpy]
      exact ⟨hv.1, by omega, hv.2.2⟩

theorem insert_rep_old {s : DisjointSet} (hs : s.Inv) (a b : Bool) {y : Nat} (h1 : 1 ≤ y)
    (h2 : y < s.top) : rep (djs_insert s a b).1 y = rep s y := by
  rcases insert_cases s a b with ⟨e, _⟩ | ⟨_, hp, _, ht, _⟩
  · rw [e]
  · refine rep_of_agree hs (insert_inv hs a b) (by omega) ?_ h1 h2
    intro z _ hz
    rw [hp, Function.update_noteq (by omega)]

theorem insert_rep_new {s : DisjointSet} (hs : s.Inv) (htop : 1 ≤ s.top) (a b : Bool)
    (hok : (djs_insert s a b).2 ≠ 0) :
    (djs_insert s a b).2 = s.top ∧ (djs_insert s a b).1.top = s.top + 1 ∧
      (djs_insert s a b).1.parent s.top = s.top ∧ (djs_insert s a b).1.rank s.top = 0 ∧
      rep (djs_insert s a b).1 s.top = s.top := by
  rcases insert_cases s a b with ⟨e, _⟩ | ⟨hid, hp, hr, ht, _⟩
  · rw [e] at hok; exact absurd rfl hok
  · have hpt : (djs_insert s a b).1.parent s.top = s.top := by rw [hp, Function.update_same]
    refine ⟨hid, ht, hpt, by rw [hr, Function.update_same], ?_⟩
    exact rep_of_root (insert_inv hs a b) htop (by omega) hpt

/-! ## djs_merge -/

theorem merge_invalid (s : DisjointSet) (x y : Nat)
    (h : ¬ ((1 ≤ x ∧ x < s.top) ∧ (1 ≤ y ∧ y < s.top))) : djs_merge s x y = some (s, 1) := by
  have h' : x ≥ s.top ∨ y ≥ s.top ∨ x ≤ 0 ∨ y ≤ 0 := by omega
  simp only [djs_merge, if_pos h']

theorem link_inv {s s1 : DisjointSet} (hs : s.Inv) {a b : Nat} (hb1 : 1 ≤ b) (hb2 : b < s.top)
    (hrb : s.parent b = b) (hab : a ≠ b) (htop : s1.top = s.top)
    (hpar : s1.parent = Function.update s.parent a b)
    (hrank : ∀ y, y ≠ b → s1.rank y = s.rank y) (hle : s.rank b ≤ s1.rank b)
    (hlt : s1.rank a < s1.rank b) : s1.Inv := by
  intro y h1 h2
  rw [htop] at h2
  rw [htop, hpar]
  by_cases hy : y = a
  · subst hy
    rw [Function.update_same]
    exact ⟨hb1, hb2, fun _ => hlt⟩
  · rw [Function.update_noteq hy]
    have hv := hs y h1 h2
    refine ⟨hv.1, hv.2.1, fun hne => ?_⟩
    have hyb : y ≠ b := fun e => hne (by rw [e]; exact hrb)
    rw [hrank y hyb]
    by_cases hpb : s.parent y = b
    · rw [hpb]
      have := hv.2.2 hne
      rw [hpb] at this
      omega
    · rw [hrank _ hpb]; exact hv.2.2 hne

theorem link_rep {s s1 : DisjointSet} (hs : s.Inv) (hs1 : s1.Inv) {a b : Nat}
    (ha1 : 1 ≤ a) (ha2 : a < s.top)
    (hra : s.parent a = a) (hrb : s.parent b = b) (hab : a ≠ b) (htop : s1.top = s.top)
    (hpar : s1.parent = Function.update s.parent a b) {z : Nat} (h1 : 1 ≤ z) (h2 : z < s.top) :
    rep s1 z = if rep s z = a then b else rep s z := by
  have hb' : s1.parent b = b := by rw [hpar, Function.update_noteq (Ne.symm hab)]; exact hrb
  have h2' : z < s1.top := by rw [htop]; exact h2
  obtain ⟨hv, hroot, k, _, hk⟩ := rep_spec hs h1 h2
  by_cases hz : rep s z = a
  · rw [if_pos hz]
    have hreach : ∀ k z, 1 ≤ z → z < s.top → s.parent^[k] z = a → ∃ k1, s1.parent^[k1] z = b := by
      intro k
      induction k with
      | zero =>
        intro z _ _ h
        refine ⟨1, ?_⟩
        rw [Function.iterate_one, hpar, ← (show z = a from h), Function.update_same]
      | succ k ih =>
        intro z hz1 hz2 h
        by_cases hza : z = a
        · refine ⟨1, ?_⟩
          rw [Function.iterate_one, hpar, hza, Function.update_same]
        · have hv := hs z hz1 hz2
          rw [Function.iterate_succ_apply] at h
          obtain ⟨k1, hk1⟩ := ih (s.parent z) hv.1 hv.2.1 h
          refine ⟨k1 + 1, ?_⟩
          rw [Function.iterate_succ_apply, hpar, Function.update_noteq hza]
          rw [hpar] at hk1
          exact hk1
    obtain ⟨k1, hk1⟩ := hreach k z h1 h2 (hk.trans hz)
    exact rep_eq_of_reaches hs1 h1 h2' hk1 hb'
  · rw [if_neg hz]
    have hne : ∀ j, s.parent^[j] z ≠ a := by
      intro j e
      apply hz
      rw [← rep_iterate hs h1 h2 j, e]
      exact rep_of_root hs ha1 ha2 hra
    refine rep_eq_of_reaches hs1 h1 h2' (k := k) ?_ ?_
    · rw [iterate_congr k (fun j _ => by rw [hpar, Function.update_noteq (hne j)])]
      exact hk
    · rw [hpar, Function.update_noteq hz]; exact hroot

theorem rep_congr (s s1 : DisjointSet) (htop : s1.top = s.top) (hpar : s1.parent = s.parent)
    (z : Nat) : rep s1 z = rep s z := by
  unfold rep; rw [htop, hpar]

theorem inv_rank_bump {s s1 : DisjointSet} (hs : s.Inv) {r : Nat} (hr : s.parent r = r)
    (htop : s1.top = s.top) (hpar : s1.parent = s.parent)
    (hrank : s1.rank = Function.update s.rank r (s.rank r + 1)) : s1.Inv := by
  intro y h1 h2
  rw [htop] at h2
  rw [htop, hpar, hrank]
  have hv := hs y h1 h2
  refine ⟨hv.1, hv.2.1, fun hne => ?_⟩
  have hyr : y ≠ r := fun e => hne (by rw [e]; exact hr)
  rw [Function.update_noteq hyr]
  by_cases hpr : s.parent y = r
  · rw [hpr, Function.update_same]
    have := hv.2.2 hne
    rw [hpr] at this
    omega
  · rw [Function.update_noteq hpr]; exact hv.2.2 hne

/-- What `djs_merge` does on two ids of `[1, top)` of a well-formed structure: one of the two
representatives becomes the representative of both sets. -/
theorem merge_spec {s : DisjointSet} (hs : s.Inv) {x y : Nat} (hx1 : 1 ≤ x) (hx2 : x < s.top)
    (hy1 : 1 ≤ y) (hy2 : y < s.top) :
    ∃ s1, djs_merge s x y = some (s1, 0) ∧ s1.Inv ∧ s1.top = s.top ∧ s1.size = s.size ∧
      ∃ a b, ((a = rep s x ∧ b = rep s y) ∨ (a = rep s y ∧ b = rep s x)) ∧
        ∀ z, 1 ≤ z → z < s.top → rep s1 z = if rep s z = a then b else rep s z := by
  obtain ⟨t1, hf1, c1⟩ := find_compressed hs x
  have ht1 := compressed_inv hs c1
  obtain ⟨t2, hf2, c2⟩ := find_compressed ht1 y
  rw [compressed_rep hs c1] at hf2
  have c := compressed_trans hs c1 c2
  have ht2 := compressed_inv hs c
  have hrep2 := compressed_rep hs c
  obtain ⟨hxv, hxr, _⟩ := rep_spec hs hx1 hx2
  obtain ⟨hyv, hyr, _⟩ := rep_spec hs hy1 hy2
  have hxr2 := compressed_root hs c hxv.1 hxv.2 hxr
  have hyr2 := compressed_root hs c hyv.1 hyv.2 hyr
  have htop2 : t2.top = s.top := c.2.1
  have hsize2 : t2.size = s.size := c.2.2.1
  have hn : ¬ (x ≥ s.top ∨ y ≥ s.top ∨ x ≤ 0 ∨ y ≤ 0) := by omega
  simp only [djs_merge, if_neg hn, hf1, hf2]
  by_cases hgt : t2.rank (rep s x) > t2.rank (rep s y)
  · rw [if_pos hgt]
    have hne : rep s y ≠ rep s x := fun e => by rw [e] at hgt; exact lt_irrefl _ hgt
    have hinv : DisjointSet.Inv { t2 with parent := Function.update t2.parent (rep s y) (rep s x) } :=
      link_inv ht2 hxv.1 (by rw [htop2]; exact hxv.2) hxr2 hne rfl rfl
        (fun _ _ => rfl) (le_refl _) hgt
    refine ⟨_, rfl, hinv, htop2, hsize2, rep s y, rep s x, Or.inr ⟨rfl, rfl⟩, ?_⟩
    intro z hz1 hz2
    have := link_rep (z := z) ht2 hinv (a := rep s y) (b := rep s x) hyv.1
      (by rw [htop2]; exact hyv.2) hyr2 hxr2 hne rfl rfl hz1 (by rw [htop2]; exact hz2)
    rw [hrep2] at this
    exact this
  · rw [if_neg hgt]
    by_cases hxy : rep s x = rep s y
    · have heq : t2.rank (rep s x) = t2.rank (rep s y) := by rw [hxy]
      simp only [heq, if_true]
      have hparent : Function.update t2.parent (rep s x) (rep s y) = t2.parent := by
        funext z
        rw [hxy]
        by_cases hz : z = rep s y
        · rw [hz, Function.update_same, hyr2]
        · rw [Function.update_noteq hz]
      have hinv : DisjointSet.Inv
          { t2 with parent := Function.update t2.parent (rep s x) (rep s y),
                    rank := Function.update t2.rank (rep s y) (t2.rank (rep s y) + 1) } :=
        inv_rank_bump ht2 hyr2 rfl hparent rfl
      refine ⟨_, rfl, hinv, htop2, hsize2, rep s x, rep s y, Or.inl ⟨rfl, rfl⟩, ?_⟩
      intro z _ _
      have hcongr := rep_congr t2
        { t2 with parent := Function.update t2.parent (rep s x) (rep s y),
                  rank := Function.update t2.rank (rep s y) (t2.rank (rep s y) + 1) }
        rfl hparent z
      rw [hcongr, hrep2]
      by_cases hz : rep s z = rep s x
      · rw [if_pos hz, hz, hxy]
      · rw [if_neg hz]
    · have hlink : ∀ t3 : DisjointSet, t3.Inv → t3.top = t2.top →
          t3.parent = Function.update t2.parent (rep s x) (rep s y) →
          ∀ z, 1 ≤ z → z < s.top →
            rep t3 z = if rep s z = rep s x then rep s y else rep s z := by
        intro t3 hinv h3top h3par z hz1 hz2
        have := link_rep (z := z) ht2 hinv (a := rep s x) (b := rep s y) hxv.1
          (by rw [htop2]; exact hxv.2) hxr2 hyr2 hxy h3top h3par hz1 (by rw [htop2]; exact hz2)
        rw [hrep2] at this
        exact this
      by_cases heq : t2.rank (rep s x) = t2.rank (rep s y)
      · simp only [heq, if_true]
        have hinv : DisjointSet.Inv
            { t2 with parent := Function.update t2.parent (rep s x) (rep s y),
                      rank := Function.update t2.rank (rep s y) (t2.rank (rep s y) + 1) } := by
          refine link_inv ht2 hyv.1 (by rw [htop2]; exact hyv.2) hyr2 hxy
            rfl rfl (fun z hz => Function.update_noteq hz _ _) ?_ ?_
          · show t2.rank (rep s y) ≤ Function.update t2.rank (rep s y) _ (rep s y)
            rw [Function.update_same]; omega
          · show Function.update t2.rank (rep s y) _ (rep s x) <
              Function.update t2.rank (rep s y) _ (rep s y)
            rw [Function.update_same, Function.update_noteq hxy]; omega
        exact ⟨_, rfl, hinv, htop2, hsize2, rep s x, rep s y, Or.inl ⟨rfl, rfl⟩,
          hlink _ hinv rfl rfl⟩
      · simp only [heq, if_false]
        have hinv : DisjointSet.Inv
            { t2 with parent := Function.update t2.parent (rep s x) (rep s y) } :=
          link_inv ht2 hyv.1 (by rw [htop2]; exact hyv.2) hyr2 hxy
            rfl rfl (fun _ _ => rfl) (le_refl _) (by show t2.rank _ < t2.rank _; omega)
        exact ⟨_, rfl, hinv, htop2, hsize2, rep s x, rep s y, Or.inl ⟨rfl, rfl⟩,
          hlink _ hinv rfl rfl⟩

/-! ## Reachable structures -/

theorem find_result {s s1 : DisjointSet} (hs : s.Inv) {x r : Nat}
    (h : djs_find s x = some (s1, r)) : r = rep s x ∧ Compressed s s1 := by
  obtain ⟨t, ht, hc⟩ := find_compressed hs x
  rw [ht] at h
  cases h
  exact ⟨rfl, hc⟩

theorem merge_result {s s1 : DisjointSet} (hs : s.Inv) {x y : Nat} {c : Int}
    (h : djs_merge s x y = some (s1, c)) : s1.Inv ∧ s1.top = s.top := by
  by_cases hv : (1 ≤ x ∧ x < s.top) ∧ (1 ≤ y ∧ y < s.top)
  · obtain ⟨t, ht, hinv, htop, _⟩ := merge_spec hs hv.1.1 hv.1.2 hv.2.1 hv.2.2
    rw [ht] at h
    cases h
    exact ⟨hinv, htop⟩
  · rw [merge_invalid s x y hv] at h
    cases h
    exact ⟨hs, rfl⟩

theorem reachable_inv {s : DisjointSet} (h : Reachable s) : s.Inv ∧ 1 ≤ s.top := by
  induction h with
  | create size ok p0 r0 s h =>
    unfold djs_create at h
    cases ok with
    | false => simp at h
    | true =>
      simp only [if_true, Option.some.injEq] at h
      subst h
      exact ⟨fun x h1 h2 => by simp only at h2; omega, le_refl _⟩
  | insert s a b _ ih =>
    refine ⟨insert_inv ih.1 a b, ?_⟩
    rcases insert_cases s a b with ⟨e, _⟩ | ⟨_, _, _, ht, _⟩
    · rw [e]; exact ih.2
    · omega
  | find s s1 x r _ hf ih =>
    have hc := (find_result ih.1 hf).2
    exact ⟨compressed_inv ih.1 hc, by rw [hc.2.1]; exact ih.2⟩
  | merge s s1 x y c _ hm ih =>
    have := merge_result ih.1 hm
    exact ⟨this.1, by rw [this.2]; exact ih.2⟩

theorem two_sets_reachable : Reachable two_sets :=
  Reachable.insert _ true true (Reachable.insert _ true true
    (Reachable.create 1 true (fun _ => 7) (fun _ => 7) _ rfl))

theorem reachable_merged {s : DisjointSet} (hs : Reachable s) (x y : Nat) :
    Reachable (merged s x y) := by
  unfold merged
  split
  · next s1 c h => exact Reachable.merge s s1 x y c hs h
  · exact hs

theorem chain_sets_reachable : Reachable chain_sets :=
  reachable_merged (reachable_merged (reachable_merged
    (Reachable.insert _ true true (Reachable.insert _ true true
      (Reachable.insert _ true true (Reachable.insert _ true true
        (Reachable.create 5 true (fun _ => 7) (fun _ => 7) _ rfl))))) 1 2) 3 4) 1 3

theorem merged_rep_iff {u v a b : Nat} :
    ((if u = a then b else u) = (if v = a then b else v)) ↔
      (u = v ∨ (u = a ∧ v = b) ∨ (u = b ∧ v = a)) := by
  split_ifs <;> omega

/-! ## The claims on `disjoint_set.c` -/

/-- C6: on a reachable structure `djs_find` returns `0` and changes nothing for an id outside
`[1, top)`; for an id of `[1, top)` it returns the root `r` that the parent pointers lead to
after some `k` steps, every node on that path gets the parent `r`, every other parent entry,
all ranks, `top` and `size` stay as they were, and no id changes its representative. -/
theorem djs_find_postcondition (s : DisjointSet) (hs : Reachable s) (x : Nat) :
    (¬ (1 ≤ x ∧ x < s.top) → djs_find s x = some (s, 0)) ∧
    ((1 ≤ x ∧ x < s.top) → ∃ s1 r k, djs_find s x = some (s1, r) ∧
      s.parent^[k] x = r ∧ s.parent r = r ∧
      (∀ j, j ≤ k → s1.parent (s.parent^[j] x) = r) ∧
      (∀ y, (∀ j, j ≤ k → s.parent^[j] x ≠ y) → s1.parent y = s.parent y) ∧
      s1.rank = s.rank ∧ s1.top = s.top ∧ s1.size = s.size ∧
      ∀ y, rep s1 y = rep s y) := by
  have hinv := (reachable_inv hs).1
  refine ⟨fun h => find_invalid s x h, fun hx => ?_⟩
  obtain ⟨s1, hfind, hrank, htop, hsize, hpath, hoff⟩ := find_spec hinv hx.1 hx.2
  obtain ⟨_, hroot, k, _, hk⟩ := rep_spec hinv hx.1 hx.2
  obtain ⟨t, ht, hc⟩ := find_compressed hinv x
  rw [hfind] at ht
  cases ht
  refine ⟨s1, rep s x, k, hfind, hk, hroot, fun j _ => hpath _ ⟨j, rfl⟩, ?_, hrank, htop, hsize,
    compressed_rep hinv hc⟩
  intro y hy
  apply hoff
  rintro ⟨j, rfl⟩
  by_cases hjk : j ≤ k
  · exact hy j hjk rfl
  · have hfix : s.parent (s.parent^[k] x) = s.parent^[k] x := by rw [hk]; exact hroot
    exact hy k (le_refl k) (iterate_of_root hfix j (by omega)).symm

/-- C6 at the id `1` of `chain_sets`, which lies two steps below its root: the chain is
`1 → 2 → 4`, and `djs_find(1)` returns `4` and rewrites `parent[1]` and `parent[2]` to `4`,
leaving `parent[3]` alone. -/
theorem djs_find_postcondition_witness :
    Reachable chain_sets ∧
    (chain_sets.top = 5 ∧ chain_sets.parent 1 = 2 ∧ chain_sets.parent 2 = 4 ∧
      chain_sets.parent 3 = 4 ∧ chain_sets.parent 4 = 4) ∧
    (djs_find chain_sets 1).map
      (fun r => (r.2, r.1.parent 1, r.1.parent 2, r.1.parent 3, r.1.parent 4)) =
        some (4, 4, 4, 4, 4) ∧
    (¬ (1 ≤ 1 ∧ 1 < chain_sets.top) → djs_find chain_sets 1 = some (chain_sets, 0)) ∧
    ((1 ≤ 1 ∧ 1 < chain_sets.top) → ∃ s1 r k, djs_find chain_sets 1 = some (s1, r) ∧
      chain_sets.parent^[k] 1 = r ∧ chain_sets.parent r = r ∧
      (∀ j, j ≤ k → s1.parent (chain_sets.parent^[j] 1) = r) ∧
      (∀ y, (∀ j, j ≤ k → chain_sets.parent^[j] 1 ≠ y) → s1.parent y = chain_sets.parent y) ∧
      s1.rank = chain_sets.rank ∧ s1.top = chain_sets.top ∧ s1.size = chain_sets.size ∧
      ∀ y, rep s1 y = rep chain_sets y) :=
  ⟨chain_sets_reachable, by decide, by decide,
    djs_find_postcondition chain_sets chain_sets_reachable 1⟩

/-- C7: on a reachable structure, for every `x`, a second `djs_find` on the result of
`djs_find x` returns that same result. -/
theorem find_idempotent (s : DisjointSet) (hs : Reachable s) (x : Nat) :
    ∃ s1 r s2, djs_find s x = some (s1, r) ∧ djs_find s1 r = some (s2, r) := by
  have hinv := (reachable_inv hs).1
  obtain ⟨s1, hf1, hc1⟩ := find_compressed hinv x
  obtain ⟨s2, hf2, _⟩ := find_compressed (compressed_inv hinv hc1) (rep s x)
  refine ⟨s1, rep s x, s2, hf1, ?_⟩
  rw [hf2, compressed_rep hinv hc1]
  by_cases hx : 1 ≤ x ∧ x < s.top
  · rw [rep_rep hinv hx.1 hx.2]
  · rw [rep_of_invalid hx, rep_of_invalid (s := s) (x := 0) (by omega)]

/-- C7 at the id `1` of `chain_sets`, a non-root after three merges: `djs_find(1)` returns
the root `4`, not `1` itself, and `djs_find(4)` on the compressed structure returns `4` again. -/
theorem find_idempotent_witness :
    Reachable chain_sets ∧
    (chain_sets.parent 1 = 2 ∧ chain_sets.parent 2 = 4 ∧ chain_sets.parent 4 = 4) ∧
    (djs_find chain_sets 1).map Prod.snd = some 4 ∧
    ((djs_find chain_sets 1).bind fun r => (djs_find r.1 r.2).map Prod.snd) = some 4 ∧
    ∃ s1 r s2, djs_find chain_sets 1 = some (s1, r) ∧ djs_find s1 r = some (s2, r) :=
  ⟨chain_sets_reachable, by decide, by decide, by decide,
    find_idempotent chain_sets chain_sets_reachable 1⟩

/-- C8: on a reachable structure, where `rep s z` is the value that `djs_find` returns for
`z`, `djs_merge x y` returns `1` and changes nothing when `x` or `y` is outside `[1, top)`;
otherwise it returns `0`, and afterwards `djs_find` gives two ids `a`, `b` of `[1, top)` the
same result exactly when they had the same representative before or one was in the set of `x`
and the other in the set of `y`. -/
theorem djs_merge_unions (s : DisjointSet) (hs : Reachable s) (x y : Nat) :
    (∀ z, ∃ t, djs_find s z = some (t, rep s z)) ∧
    (¬ ((1 ≤ x ∧ x < s.top) ∧ (1 ≤ y ∧ y < s.top)) → djs_merge s x y = some (s, 1)) ∧
    (((1 ≤ x ∧ x < s.top) ∧ (1 ≤ y ∧ y < s.top)) → ∃ s1, djs_merge s x y = some (s1, 0) ∧
      ∀ a b, 1 ≤ a → a < s.top → 1 ≤ b → b < s.top →
        ∃ sa ra sb rb, djs_find s1 a = some (sa, ra) ∧ djs_find sa b = some (sb, rb) ∧
          (ra = rb ↔ (rep s a = rep s b ∨ (rep s a = rep s x ∧ rep s b = rep s y) ∨
            (rep s a = rep s y ∧ rep s b = rep s x)))) := by
  have hinv := (reachable_inv hs).1
  refine ⟨fun z => ?_, fun h => merge_invalid s x y h, fun hv => ?_⟩
  · obtain ⟨t, ht, _⟩ := find_compressed hinv z
    exact ⟨t, ht⟩
  obtain ⟨s1, hm, hinv1, _, _, u, v, huv, hrep⟩ := merge_spec hinv hv.1.1 hv.1.2 hv.2.1 hv.2.2
  refine ⟨s1, hm, fun a b ha1 ha2 hb1 hb2 => ?_⟩
  obtain ⟨sa, hfa, hca⟩ := find_compressed hinv1 a
  obtain ⟨sb, hfb, _⟩ := find_compressed (compressed_inv hinv1 hca) b
  refine ⟨sa, rep s1 a, sb, rep sa b, hfa, hfb, ?_⟩
  rw [compressed_rep hinv1 hca, hrep a ha1 ha2, hrep b hb1 hb2, merged_rep_iff]
  rcases huv with ⟨rfl, rfl⟩ | ⟨rfl, rfl⟩
  · exact Iff.rfl
  · constructor
    · rintro (h | h | h)
      · exact Or.inl h
      · exact Or.inr (Or.inr h)
      · exact Or.inr (Or.inl h)
    · rintro (h | h | h)
      · exact Or.inl h
      · exact Or.inr (Or.inr h)
      · exact Or.inr (Or.inl h)

/-- C8 at the two ids of `two_sets`. -/
theorem djs_merge_unions_witness :
    Reachable two_sets ∧
    (∀ z, ∃ t, djs_find two_sets z = some (t, rep two_sets z)) ∧
    (¬ ((1 ≤ 1 ∧ 1 < two_sets.top) ∧ (1 ≤ 2 ∧ 2 < two_sets.top)) →
      djs_merge two_sets 1 2 = some (two_sets, 1)) ∧
    (((1 ≤ 1 ∧ 1 < two_sets.top) ∧ (1 ≤ 2 ∧ 2 < two_sets.top)) →
      ∃ s1, djs_merge two_sets 1 2 = some (s1, 0) ∧
      ∀ a b, 1 ≤ a → a < two_sets.top → 1 ≤ b → b < two_sets.top →
        ∃ sa ra sb rb, djs_find s1 a = some (sa, ra) ∧ djs_find sa b = some (sb, rb) ∧
          (ra = rb ↔ (rep two_sets a = rep two_sets b ∨
            (rep two_sets a = rep two_sets 1 ∧ rep two_sets b = rep two_sets 2) ∨
            (rep two_sets a = rep two_sets 2 ∧ rep two_sets b = rep two_sets 1)))) :=
  ⟨two_sets_reachable, djs_merge_unions two_sets two_sets_reachable 1 2⟩

/-- C9, the code at the failing input: after `djs_create(32)` and one `djs_insert`, the call
`djs_merge(1, 1)` returns `0` and leaves `rank[1] = 1`, where it was `0`; and after two inserts
and `djs_merge(1, 2)`, which leaves `rank[2] = 1`, the call `djs_merge(2, 1)` returns `0` and
leaves `rank[2] = 2`. -/
theorem merge_same_root_increments_rank :
    ((djs_create 32 true (fun _ => 0) (fun _ => 0)).bind fun s =>
      (djs_merge (djs_insert s true true).1 1 1).map fun r =>
        ((djs_insert s true true).1.rank 1, r.1.rank 1, r.2)) = some (0, 1, 0) ∧
    ((djs_create 32 true (fun _ => 0) (fun _ => 0)).bind fun s =>
      (djs_merge (djs_insert (djs_insert s true true).1 true true).1 1 2).bind fun r1 =>
        (djs_merge r1.1 2 1).map fun r2 =>
          (r1.1.parent 1, r1.1.rank 2, r2.1.parent 1, r2.1.parent 2, r2.1.rank 2, r2.2)) =
      some (2, 1, 2, 2, 2, 0) := by
  constructor <;> decide

theorem asc_of_pairwise {arr : List Nat} (h : arr.Pairwise (· < ·)) :
    ∀ i j, i < j → j < arr.length → arr.getD i 0 < arr.getD j 0 := by
  intro i j hij hj
  have hi : i < arr.length := by omega
  rw [List.getD_eq_getElem arr 0 hi, List.getD_eq_getElem arr 0 hj]
  exact List.pairwise_iff_getElem.mp h i j hi hj hij

theorem asc_le {arr : List Nat}
    (hasc : ∀ i j, i < j → j < arr.length → arr.getD i 0 < arr.getD j 0) {i j : Nat}
    (hij : i ≤ j) (hj : j < arr.length) : arr.getD i 0 ≤ arr.getD j 0 := by
  rcases Nat.eq_or_lt_of_le hij with e | e
  · rw [e]
  · exact le_of_lt (hasc i j e hj)

theorem asc_lt_of_lt {arr : List Nat}
    (hasc : ∀ i j, i < j → j < arr.length → arr.getD i 0 < arr.getD j 0) {i j : Nat}
    (hi : i < arr.length) (h : arr.getD i 0 < arr.getD j 0) : i < j := by
  by_contra hcon
  have := asc_le hasc (not_lt.mp hcon) hi
  omega

theorem asc_ge_index {arr : List Nat}
    (hasc : ∀ i j, i < j → j < arr.length → arr.getD i 0 < arr.getD j 0) :
    ∀ i, i < arr.length → i ≤ arr.getD i 0 := by
  intro i
  induction i with
  | zero => intro _; exact Nat.zero_le _
  | succ i ih =>
    intro hi
    have h1 := ih (by omega)
    have h2 := hasc i (i + 1) (by omega) hi
    omega

theorem asc_length_le {arr : List Nat}
    (hasc : ∀ i j, i < j → j < arr.length → arr.getD i 0 < arr.getD j 0) {B : Nat}
    (hB : ∀ i, i < arr.length → arr.getD i 0 < B) : arr.length ≤ B := by
  by_contra hcon
  have h1 := asc_ge_index hasc (arr.length - 1) (by omega)
  have h2 := hB (arr.length - 1) (by omega)
  omega

theorem binsearch_loop_spec {arr : List Nat}
    (hasc : ∀ i j, i < j → j < arr.length → arr.getD i 0 < arr.getD j 0) (v : Nat) :
    ∀ (fuel : Nat) (low high : Int), 0 ≤ low → low ≤ high + 1 → high < arr.length →
      high - low + 1 < fuel →
      (∀ p, p < arr.length → arr.getD p 0 = v → low ≤ (p : Int) ∧ (p : Int) ≤ high) →
      ∃ r, binsearch_loop arr v fuel low high = some r ∧
        ((r = -1 ∧ ∀ p, p < arr.length → arr.getD p 0 ≠ v) ∨
          (0 ≤ r ∧ r.toNat < arr.length ∧ arr.getD r.toNat 0 = v)) := by
  intro fuel
  induction fuel with
  | zero => intro low high h0 h1 _ hf; omega
  | succ fuel ih =>
    intro low high h0 _ hhigh hf hwin
    by_cases hle : low ≤ high
    · have hmid : Int.tdiv (low + high) 2 = (low + high) / 2 :=
        Int.tdiv_eq_ediv (by omega) (by omega)
      simp only [binsearch_loop, if_pos hle, hmid]
      have hm1 : low ≤ (low + high) / 2 := by omega
      have hm2 : (low + high) / 2 ≤ high := by omega
      have hmn : ((low + high) / 2).toNat < arr.length := by omega
      by_cases heq : arr.getD ((low + high) / 2).toNat 0 = v
      · rw [if_pos heq]
        exact ⟨_, rfl, Or.inr ⟨by omega, hmn, heq⟩⟩
      · rw [if_neg heq]
        by_cases hgt : arr.getD ((low + high) / 2).toNat 0 > v
        · rw [if_pos hgt]
          apply ih low ((low + high) / 2 - 1) h0 (by omega) (by omega) (by omega)
          intro p hp hpv
          have hw := hwin p hp hpv
          have hlt : p < ((low + high) / 2).toNat :=
            asc_lt_of_lt hasc hp (by rw [hpv]; exact hgt)
          omega
        · rw [if_neg hgt]
          apply ih ((low + high) / 2 + 1) high (by omega) (by omega) hhigh (by omega)
          intro p hp hpv
          have hw := hwin p hp hpv
          have hlt : ((low + high) / 2).toNat < p :=
            asc_lt_of_lt hasc hmn (by rw [hpv]; omega)
          omega
    · simp only [binsearch_loop, if_neg hle]
      refine ⟨_, rfl, Or.inl ⟨rfl, fun p hp hpv => ?_⟩⟩
      have := hwin p hp hpv
      omega

theorem to_longlong_of_lt {x : Nat} (h : x < 2 ^ 63) : to_longlong x = (x : Int) := by
  unfold to_longlong
  have h1 : x % 2 ^ 64 = x := Nat.mod_eq_of_lt (by omega)
  rw [h1, if_pos h]

theorem high_init {n : Nat} (h : n ≤ 2 ^ 63) :
    to_longlong (to_ulong ((n : Int) - 1)) = (n : Int) - 1 := by
  unfold to_longlong to_ulong
  split_ifs <;> omega

/-- The loop of `binsearch` ends within `high - low + 2` iterations on any array. -/
theorem binsearch_loop_total (arr : List Nat) (v : Nat) :
    ∀ (fuel : Nat) (low high : Int), 0 ≤ low → low ≤ high + 1 → high - low + 1 < fuel →
      ∃ r, binsearch_loop arr v fuel low high = some r := by
  intro fuel
  induction fuel with
  | zero => intro low high _ _ hf; omega
  | succ fuel ih =>
    intro low high h0 h1 hf
    by_cases hle : low ≤ high
    · have hmid : Int.tdiv (low + high) 2 = (low + high) / 2 :=
        Int.tdiv_eq_ediv (by omega) (by omega)
      simp only [binsearch_loop, if_pos hle, hmid]
      by_cases heq : arr.getD ((low + high) / 2).toNat 0 = v
      · rw [if_pos heq]; exact ⟨_, rfl⟩
      · rw [if_neg heq]
        by_cases hgt : arr.getD ((low + high) / 2).toNat 0 > v
        · rw [if_pos hgt]
          exact ih low ((low + high) / 2 - 1) h0 (by omega) (by omega)
        · rw [if_neg hgt]
          exact ih ((low + high) / 2 + 1) high (by omega) (by omega) (by omega)
    · simp only [binsearch_loop, if_neg hle]
      exact ⟨_, rfl⟩

/-- `binsearch` returns on every array and every `size` that an `slr_ulong` can hold. -/
theorem binsearch_total (arr : List Nat) (v : Nat) (size : Nat) (hsize : size < 2 ^ 64) :
    ∃ r, binsearch arr v size = some r := by
  unfold binsearch
  by_cases h : size ≤ 2 ^ 63
  · rw [high_init h]
    exact binsearch_loop_total arr v _ _ _ (le_refl _) (by omega) (by omega)
  · have hneg : ¬ ((0 : Int) ≤ to_longlong (to_ulong ((size : Int) - 1))) := by
      unfold to_longlong to_ulong
      split_ifs <;> omega
    exact ⟨-1, by simp only [binsearch_loop, if_neg hneg]⟩

/-- On a strictly ascending array `binsearch` returns, and its result is `-1` exactly when the
value does not occur and the position of the value otherwise. -/
theorem binsearch_spec {arr : List Nat}
    (hasc : ∀ i j, i < j → j < arr.length → arr.getD i 0 < arr.getD j 0)
    (hlen : arr.length ≤ 2 ^ 63) (v : Nat) :
    ∃ r, binsearch arr v arr.length = some r ∧
      ((r = -1 ∧ ∀ p, p < arr.length → arr.getD p 0 ≠ v) ∨
        (0 ≤ r ∧ r.toNat < arr.length ∧ arr.getD r.toNat 0 = v)) := by
  unfold binsearch
  rw [high_init hlen]
  apply binsearch_loop_spec hasc v _ _ _ (le_refl _) (by omega) (by omega) (by omega)
  intro p hp _
  omega

/-! ## The neighbour search of the first pass -/

theorem asc_inj {arr : List Nat}
    (hasc : ∀ i j, i < j → j < arr.length → arr.getD i 0 < arr.getD j 0) {p q : Nat}
    (hp : p < arr.length) (hq : q < arr.length) (h : arr.getD p 0 = arr.getD q 0) : p = q := by
  rcases Nat.lt_trichotomy p q with h1 | h1 | h1
  · have := hasc p q h1 hq; omega
  · exact h1
  · have := hasc q p h1 hp; omega

theorem search_spec {indices : List Nat}
    (hasc : ∀ i j, i < j → j < indices.length → indices.getD i 0 < indices.getD j 0)
    (hlt : ∀ i, i < indices.length → indices.getD i 0 < 2 ^ 63) {i : Nat}
    (hi : i < indices.length) {d : Int} (hd : -2 ^ 63 ≤ d ∧ d < 0) :
    ∃ r, binsearch indices (to_ulong ((indices.getD i 0 : Int) + d)) indices.length = some r ∧
      ((r = -1 ∧ ∀ p, p < indices.length →
          (indices.getD p 0 : Int) ≠ (indices.getD i 0 : Int) + d) ∨
        (0 ≤ r ∧ r.toNat < i ∧ (indices.getD r.toNat 0 : Int) = (indices.getD i 0 : Int) + d)) := by
  obtain ⟨r, hr, hcase⟩ := binsearch_spec hasc (asc_length_le hasc hlt)
    (to_ulong ((indices.getD i 0 : Int) + d))
  refine ⟨r, hr, ?_⟩
  have hAi := hlt i hi
  rcases hcase with ⟨h1, h2⟩ | ⟨h1, h2, h3⟩
  · left
    refine ⟨h1, fun p hp he => h2 p hp ?_⟩
    unfold to_ulong
    have := hlt p hp
    omega
  · right
    have hAr := hlt _ h2
    unfold to_ulong at h3
    have he : (indices.getD r.toNat 0 : Int) = (indices.getD i 0 : Int) + d := by omega
    refine ⟨h1, asc_lt_of_lt hasc h2 (by omega), he⟩

theorem hood_loop_spec {indices : List Nat}
    (hasc : ∀ i j, i < j → j < indices.length → indices.getD i 0 < indices.getD j 0)
    (hlt : ∀ i, i < indices.length → indices.getD i 0 < 2 ^ 63) {i : Nat}
    (hi : i < indices.length) (labels : Nat → Nat) :
    ∀ (ds : List Int) (acc : List Nat), (∀ d, d ∈ ds → -2 ^ 63 ≤ d ∧ d < 0) →
      ∃ ps : List Nat,
        hood_loop indices labels indices.length (indices.getD i 0 : Int) ds acc =
          some (acc ++ ps.map labels) ∧
        (∀ p, p ∈ ps → p < i ∧
          ∃ d, d ∈ ds ∧ (indices.getD i 0 : Int) + d = (indices.getD p 0 : Int)) ∧
        (∀ p, p < indices.length → ∀ d, d ∈ ds →
          (indices.getD i 0 : Int) + d = (indices.getD p 0 : Int) → p ∈ ps) := by
  intro ds
  induction ds with
  | nil =>
    intro acc _
    exact ⟨[], by simp [hood_loop], fun p hp => by simp at hp, fun p _ d hd => by simp at hd⟩
  | cons d rest ih =>
    intro acc hds
    have hd := hds d (List.mem_cons_self _ _)
    have hrest : ∀ e, e ∈ rest → -2 ^ 63 ≤ e ∧ e < 0 :=
      fun e he => hds e (List.mem_cons_of_mem _ he)
    have hguard : (indices.getD i 0 : Int) ≥ d := by omega
    obtain ⟨r, hr, hcase⟩ := search_spec hasc hlt hi hd
    simp only [hood_loop, if_pos hguard, hr]
    rcases hcase with ⟨h1, h2⟩ | ⟨h1, h2, h3⟩
    · have hneg : ¬ (r ≠ -1) := by omega
      rw [if_neg hneg]
      obtain ⟨ps, hps, hsound, hcomplete⟩ := ih acc hrest
      refine ⟨ps, hps, ?_, ?_⟩
      · intro p hp
        obtain ⟨hpi, e, he, heq⟩ := hsound p hp
        exact ⟨hpi, e, List.mem_cons_of_mem _ he, heq⟩
      · intro p hp e he heq
        rcases List.mem_cons.mp he with rfl | he
        · exact absurd heq.symm (h2 p hp)
        · exact hcomplete p hp e he heq
    · have hpos : r ≠ -1 := by omega
      rw [if_pos hpos]
      obtain ⟨ps, hps, hsound, hcomplete⟩ := ih (acc ++ [labels r.toNat]) hrest
      refine ⟨r.toNat :: ps, ?_, ?_, ?_⟩
      · rw [hps, List.map_cons, List.append_assoc]; rfl
      · intro p hp
        rcases List.mem_cons.mp hp with rfl | hp
        · exact ⟨h2, d, List.mem_cons_self _ _, h3.symm⟩
        · obtain ⟨hpi, e, he, heq⟩ := hsound p hp
          exact ⟨hpi, e, List.mem_cons_of_mem _ he, heq⟩
      · intro p hp e he heq
        rcases List.mem_cons.mp he with rfl | he
        · have : p = r.toNat := asc_inj hasc hp (by omega) (by omega)
          rw [this]; exact List.mem_cons_self _ _
        · exact List.mem_cons_of_mem _ (hcomplete p hp e he heq)

/-! ## The merge loop of the first pass -/

theorem merge_spec_iff {s : DisjointSet} (hs : s.Inv) {x y : Nat} (hx1 : 1 ≤ x) (hx2 : x < s.top)
    (hy1 : 1 ≤ y) (hy2 : y < s.top) :
    ∃ s1, djs_merge s x y = some (s1, 0) ∧ s1.Inv ∧ s1.top = s.top ∧ s1.size = s.size ∧
      ∀ a b, 1 ≤ a → a < s.top → 1 ≤ b → b < s.top →
        (rep s1 a = rep s1 b ↔ (rep s a = rep s b ∨ (rep s a = rep s x ∧ rep s b = rep s y) ∨
          (rep s a = rep s y ∧ rep s b = rep s x))) := by
  obtain ⟨s1, hm, hinv1, htop, hsize, u, v, huv, hrep⟩ := merge_spec hs hx1 hx2 hy1 hy2
  refine ⟨s1, hm, hinv1, htop, hsize, fun a b ha1 ha2 hb1 hb2 => ?_⟩
  rw [hrep a ha1 ha2, hrep b hb1 hb2, merged_rep_iff]
  rcases huv with ⟨rfl, rfl⟩ | ⟨rfl, rfl⟩
  · exact Iff.rfl
  · constructor
    · rintro (h | h | h)
      · exact Or.inl h
      · exact Or.inr (Or.inr h)
      · exact Or.inr (Or.inl h)
    · rintro (h | h | h)
      · exact Or.inl h
      · exact Or.inr (Or.inr h)
      · exact Or.inr (Or.inl h)

theorem merge_loop_spec (x : Nat) :
    ∀ (hood : List Nat) (s : DisjointSet), s.Inv → 1 ≤ x → x < s.top →
      (∀ h, h ∈ hood → 1 ≤ h ∧ h < s.top) →
      ∃ s1, merge_loop s x hood = some (s1, 0) ∧ s1.Inv ∧ s1.top = s.top ∧
        (∀ a b, 1 ≤ a → a < s.top → 1 ≤ b → b < s.top → rep s a = rep s b →
          rep s1 a = rep s1 b) ∧
        (∀ h, h ∈ hood → rep s1 x = rep s1 h) ∧
        (∀ Q : Nat → Nat → Prop, (∀ a b, Q a b → Q b a) →
          (∀ a b c, (1 ≤ b ∧ b < s.top) → Q a b → Q b c → Q a c) →
          (∀ a b, 1 ≤ a → a < s.top → 1 ≤ b → b < s.top → rep s a = rep s b → Q a b) →
          (∀ h, h ∈ hood → Q x h) →
          ∀ a b, 1 ≤ a → a < s.top → 1 ≤ b → b < s.top → rep s1 a = rep s1 b → Q a b) := by
  intro hood
  induction hood with
  | nil =>
    intro s hs _ _ _
    exact ⟨s, rfl, hs, rfl, fun _ _ _ _ _ _ h => h, fun h hh => by simp at hh,
      fun Q _ _ hQ _ a b ha1 ha2 hb1 hb2 h => hQ a b ha1 ha2 hb1 hb2 h⟩
  | cons y rest ih =>
    intro s hs hx1 hx2 hval
    have hy := hval y (List.mem_cons_self _ _)
    obtain ⟨t, hm, hinvt, htop, _, hiff⟩ := merge_spec_iff hs hx1 hx2 hy.1 hy.2
    have hrest : ∀ h, h ∈ rest → 1 ≤ h ∧ h < t.top := by
      intro h hh
      rw [htop]
      exact hval h (List.mem_cons_of_mem _ hh)
    obtain ⟨s1, hloop, hinv1, htop1, hmono, hmerged, hleast⟩ :=
      ih t hinvt hx1 (by rw [htop]; exact hx2) hrest
    rw [htop] at hmono hleast
    have hstep : ∀ a b, 1 ≤ a → a < s.top → 1 ≤ b → b < s.top → rep s a = rep s b →
        rep t a = rep t b := fun a b ha1 ha2 hb1 hb2 h =>
      (hiff a b ha1 ha2 hb1 hb2).mpr (Or.inl h)
    refine ⟨s1, ?_, hinv1, htop1.trans htop, ?_, ?_, ?_⟩
    · have hne : ¬ ((0 : Int) = 1) := by decide
      simp only [merge_loop, hm, if_neg hne]
      exact hloop
    · intro a b ha1 ha2 hb1 hb2 h
      exact hmono a b ha1 ha2 hb1 hb2 (hstep a b ha1 ha2 hb1 hb2 h)
    · intro h hh
      rcases List.mem_cons.mp hh with rfl | hh
      · exact hmono x h hx1 hx2 hy.1 hy.2
          ((hiff x h hx1 hx2 hy.1 hy.2).mpr (Or.inr (Or.inl ⟨rfl, rfl⟩)))
      · exact hmerged h hh
    · intro Q hsymm htrans hQ hhood a b ha1 ha2 hb1 hb2 h
      refine hleast Q hsymm htrans ?_ (fun h hh => hhood h (List.mem_cons_of_mem _ hh))
        a b ha1 ha2 hb1 hb2 h
      intro a b ha1 ha2 hb1 hb2 hab
      have hxy : Q x y := hhood y (List.mem_cons_self _ _)
      rcases (hiff a b ha1 ha2 hb1 hb2).mp hab with h | ⟨h1, h2⟩ | ⟨h1, h2⟩
      · exact hQ a b ha1 ha2 hb1 hb2 h
      · have q1 : Q a x := hQ a x ha1 ha2 hx1 hx2 h1
        have q2 : Q y b := hQ y b hy.1 hy.2 hb1 hb2 h2.symm
        exact htrans a x b ⟨hx1, hx2⟩ q1 (htrans x y b hy hxy q2)
      · have q1 : Q a y := hQ a y ha1 ha2 hy.1 hy.2 h1
        have q2 : Q x b := hQ x b hx1 hx2 hb1 hb2 h2.symm
        exact htrans a y b hy q1 (htrans y x b ⟨hx1, hx2⟩ (hsymm x y hxy) q2)

/-! ## The first pass -/

theorem edge_lt {indices : List Nat} {deltas : List Int} (hpre : Pre indices deltas) {p q : Nat}
    (h : Edge indices deltas p q) : p < q := by
  obtain ⟨hp, _, d, hd, heq⟩ := h
  have := (hpre.2.2 d hd).2
  exact asc_lt_of_lt hpre.1 hp (by omega)

theorem connectedBelow_mono {indices : List Nat} {deltas : List Int} {k m : Nat} (hkm : k ≤ m)
    {a b : Nat} (h : ConnectedBelow indices deltas k a b) : ConnectedBelow indices deltas m a b :=
  Relation.EqvGen.mono (fun _ _ hab => ⟨hab.1, lt_of_lt_of_le hab.2 hkm⟩) h

theorem connectedBelow_length {indices : List Nat} {deltas : List Int} (a b : Nat) :
    ConnectedBelow indices deltas indices.length a b ↔ Connected indices deltas a b :=
  ⟨Relation.EqvGen.mono (fun _ _ hab => hab.1),
    Relation.EqvGen.mono (fun _ _ hab => ⟨hab, hab.2.1⟩)⟩

theorem scan_inv_insert {indices : List Nat} {deltas : List Int} (hpre : Pre indices deltas)
    {i : Nat} {st : Scan} (hinv : ScanInv indices deltas i st)
    (hnone : ∀ p, p < indices.length → ∀ d, d ∈ deltas →
      (indices.getD i 0 : Int) + d = (indices.getD p 0 : Int) → False)
    {s1 : DisjointSet} (hs1 : s1.Inv) (htop : s1.top = st.sets.top + 1)
    (hold : ∀ y, 1 ≤ y → y < st.sets.top → rep s1 y = rep st.sets y)
    (hnew : rep s1 st.sets.top = st.sets.top) :
    ScanInv indices deltas (i + 1)
      { sets := s1, labels := Function.update st.labels i st.sets.top } := by
  obtain ⟨hs, htop1, hvalid, hconn, hcover⟩ := hinv
  have hlab : ∀ p, p ≠ i → Function.update st.labels i st.sets.top p = st.labels p :=
    fun p hp => Function.update_noteq hp _ _
  have hlabi : Function.update st.labels i st.sets.top i = st.sets.top := Function.update_same _ _ _
  have hsep : ∀ q, q < i → rep s1 st.sets.top ≠ rep s1 (st.labels q) := by
    intro q hq e
    have hv := hvalid q hq
    rw [hnew, hold _ hv.1 hv.2] at e
    have := (rep_spec hs hv.1 hv.2).1.2
    omega
  have hcomplete : ∀ a b, ConnectedBelow indices deltas (i + 1) a b →
      rep s1 (Function.update st.labels i st.sets.top a) =
        rep s1 (Function.update st.labels i st.sets.top b) := by
    intro a b h
    unfold ConnectedBelow at h
    induction h with
    | rel a b hab =>
      obtain ⟨hE, hb⟩ := hab
      have hlt := edge_lt hpre hE
      by_cases hbi : b = i
      · exfalso
        obtain ⟨ha, _, d, hd, heq⟩ := hE
        rw [hbi] at heq
        exact hnone a ha d hd heq
      · have hb' : b < i := by omega
        have ha' : a < i := by omega
        rw [hlab a (by omega), hlab b hbi]
        have hva := hvalid a ha'
        have hvb := hvalid b hb'
        rw [hold _ hva.1 hva.2, hold _ hvb.1 hvb.2]
        exact (hconn a b ha' hb').mpr (Relation.EqvGen.rel _ _ ⟨hE, hb'⟩)
    | refl a => rfl
    | symm a b _ ih => exact ih.symm
    | trans a b c _ _ ih1 ih2 => exact ih1.trans ih2
  refine ⟨hs1, by show 1 ≤ s1.top; omega, ?_, ?_, ?_⟩
  · intro p hp
    show 1 ≤ Function.update st.labels i st.sets.top p ∧
      Function.update st.labels i st.sets.top p < s1.top
    by_cases hpi : p = i
    · rw [hpi, hlabi]; omega
    · rw [hlab p hpi]
      have := hvalid p (by omega)
      omega
  · intro p q hp hq
    show rep s1 (Function.update st.labels i st.sets.top p) =
      rep s1 (Function.update st.labels i st.sets.top q) ↔ _
    refine ⟨fun h => ?_, hcomplete p q⟩
    by_cases hpi : p = i
    · by_cases hqi : q = i
      · rw [hpi, hqi]; exact Relation.EqvGen.refl _
      · rw [hpi, hlabi, hlab q hqi] at h
        exact absurd h (hsep q (by omega))
    · by_cases hqi : q = i
      · rw [hqi, hlabi, hlab p hpi] at h
        exact absurd h.symm (hsep p (by omega))
      · rw [hlab p hpi, hlab q hqi] at h
        have hvp := hvalid p (by omega)
        have hvq := hvalid q (by omega)
        rw [hold _ hvp.1 hvp.2, hold _ hvq.1 hvq.2] at h
        exact connectedBelow_mono (Nat.le_succ i) ((hconn p q (by omega) (by omega)).mp h)
  · intro id h1 h2
    have h2' : id < s1.top := h2
    show ∃ p, p < i + 1 ∧ Function.update st.labels i st.sets.top p = id
    by_cases hid : id = st.sets.top
    · exact ⟨i, by omega, by rw [hlabi, hid]⟩
    · obtain ⟨p, hp, hpl⟩ := hcover id h1 (by omega)
      exact ⟨p, by omega, by rw [hlab p (by omega), hpl]⟩

theorem scan_inv_merge {indices : List Nat} {deltas : List Int} (hpre : Pre indices deltas)
    {i : Nat} (hi : i < indices.length) {st : Scan} (hinv : ScanInv indices deltas i st)
    {p0 : Nat} {rest : List Nat}
    (hfound : ∀ p, p ∈ p0 :: rest → p < i ∧
      ∃ d, d ∈ deltas ∧ (indices.getD i 0 : Int) + d = (indices.getD p 0 : Int))
    (hall : ∀ p, p < indices.length → ∀ d, d ∈ deltas →
      (indices.getD i 0 : Int) + d = (indices.getD p 0 : Int) → p ∈ p0 :: rest)
    {s1 : DisjointSet} (hs1 : s1.Inv) (htop : s1.top = st.sets.top)
    (hmono : ∀ a b, 1 ≤ a → a < st.sets.top → 1 ≤ b → b < st.sets.top →
      rep st.sets a = rep st.sets b → rep s1 a = rep s1 b)
    (hmerged : ∀ h, h ∈ rest.map st.labels → rep s1 (st.labels p0) = rep s1 h)
    (hleast : ∀ Q : Nat → Nat → Prop, (∀ a b, Q a b → Q b a) →
      (∀ a b c, (1 ≤ b ∧ b < st.sets.top) → Q a b → Q b c → Q a c) →
      (∀ a b, 1 ≤ a → a < st.sets.top → 1 ≤ b → b < st.sets.top →
        rep st.sets a = rep st.sets b → Q a b) →
      (∀ h, h ∈ rest.map st.labels → Q (st.labels p0) h) →
      ∀ a b, 1 ≤ a → a < st.sets.top → 1 ≤ b → b < st.sets.top → rep s1 a = rep s1 b → Q a b) :
    ScanInv indices deltas (i + 1)
      { sets := s1, labels := Function.update st.labels i (st.labels p0) } := by
  obtain ⟨hs, htop1, hvalid, hconn, hcover⟩ := hinv
  have hp0 : p0 < i := (hfound p0 (List.mem_cons_self _ _)).1
  have hlab : ∀ p, p ≠ i → Function.update st.labels i (st.labels p0) p = st.labels p :=
    fun p hp => Function.update_noteq hp _ _
  have hlabi : Function.update st.labels i (st.labels p0) i = st.labels p0 :=
    Function.update_same _ _ _
  have hedge : ∀ p, p ∈ p0 :: rest → ConnectedBelow indices deltas (i + 1) p i := by
    intro p hp
    obtain ⟨hpi, d, hd, heq⟩ := hfound p hp
    exact Relation.EqvGen.rel _ _ ⟨⟨by omega, hi, d, hd, heq⟩, Nat.lt_succ_self i⟩
  -- every position up to `i` carries the label of a position below `i` connected to it
  have hnb : ∀ p, p < i + 1 → ∃ m, m < i ∧
      Function.update st.labels i (st.labels p0) p = st.labels m ∧
      ConnectedBelow indices deltas (i + 1) p m := by
    intro p hp
    by_cases hpi : p = i
    · refine ⟨p0, hp0, by rw [hpi, hlabi], ?_⟩
      rw [hpi]
      exact Relation.EqvGen.symm _ _ (hedge p0 (List.mem_cons_self _ _))
    · exact ⟨p, by omega, hlab p hpi, Relation.EqvGen.refl _⟩
  have hvalid1 : ∀ p, p < i + 1 → 1 ≤ Function.update st.labels i (st.labels p0) p ∧
      Function.update st.labels i (st.labels p0) p < st.sets.top := by
    intro p hp
    obtain ⟨m, hm, hlm, _⟩ := hnb p hp
    rw [hlm]; exact hvalid m hm
  have hrepold : ∀ p q, p < i + 1 → q < i + 1 →
      rep st.sets (Function.update st.labels i (st.labels p0) p) =
        rep st.sets (Function.update st.labels i (st.labels p0) q) →
      ConnectedBelow indices deltas (i + 1) p q := by
    intro p q hp hq h
    obtain ⟨m, hm, hlm, hcm⟩ := hnb p hp
    obtain ⟨k, hk, hlk, hck⟩ := hnb q hq
    rw [hlm, hlk] at h
    have := connectedBelow_mono (Nat.le_succ i) ((hconn m k hm hk).mp h)
    exact Relation.EqvGen.trans _ _ _ hcm
      (Relation.EqvGen.trans _ _ _ this (Relation.EqvGen.symm _ _ hck))
  have hcomplete : ∀ a b, ConnectedBelow indices deltas (i + 1) a b →
      rep s1 (Function.update st.labels i (st.labels p0) a) =
        rep s1 (Function.update st.labels i (st.labels p0) b) := by
    intro a b h
    unfold ConnectedBelow at h
    induction h with
    | rel a b hab =>
      obtain ⟨hE, hb⟩ := hab
      have hlt := edge_lt hpre hE
      by_cases hbi : b = i
      · obtain ⟨ha, _, d, hd, heq⟩ := hE
        rw [hbi] at heq
        rw [hbi, hlabi, hlab a (by omega)]
        rcases List.mem_cons.mp (hall a ha d hd heq) with e | e
        · rw [e]
        · exact (hmerged _ (List.mem_map_of_mem _ e)).symm
      · have hb' : b < i := by omega
        have ha' : a < i := by omega
        rw [hlab a (by omega), hlab b hbi]
        have hva := hvalid a ha'
        have hvb := hvalid b hb'
        exact hmono _ _ hva.1 hva.2 hvb.1 hvb.2
          ((hconn a b ha' hb').mpr (Relation.EqvGen.rel _ _ ⟨hE, hb'⟩))
    | refl a => rfl
    | symm a b _ ih => exact ih.symm
    | trans a b c _ _ ih1 ih2 => exact ih1.trans ih2
  refine ⟨hs1, by show 1 ≤ s1.top; omega, ?_, ?_, ?_⟩
  · intro p hp
    show 1 ≤ Function.update st.labels i (st.labels p0) p ∧
      Function.update st.labels i (st.labels p0) p < s1.top
    rw [htop]; exact hvalid1 p hp
  · intro p q hp hq
    show rep s1 (Function.update st.labels i (st.labels p0) p) =
      rep s1 (Function.update st.labels i (st.labels p0) q) ↔ _
    refine ⟨fun h => ?_, hcomplete p q⟩
    have hQ := hleast
      (fun a b => ∀ p q, p < i + 1 → q < i + 1 →
        Function.update st.labels i (st.labels p0) p = a →
        Function.update st.labels i (st.labels p0) q = b →
        ConnectedBelow indices deltas (i + 1) p q)
      (fun a b hab p q hp hq hpa hqb => Relation.EqvGen.symm _ _ (hab q p hq hp hqb hpa))
      (fun a b c hb hab hbc p q hp hq hpa hqc => by
        obtain ⟨m, hm, hml⟩ := hcover b hb.1 hb.2
        have hml' : Function.update st.labels i (st.labels p0) m = b := by
          rw [hlab m (by omega)]; exact hml
        exact Relation.EqvGen.trans _ _ _ (hab p m hp (by omega) hpa hml')
          (hbc m q (by omega) hq hml' hqc))
      (fun a b _ _ _ _ hab p q hp hq hpa hqb => hrepold p q hp hq (by rw [hpa, hqb]; exact hab))
      (fun h hh p q hp hq hpa hqb => by
        obtain ⟨k, hk, hkl⟩ := List.mem_map.mp hh
        have hki := (hfound k (List.mem_cons_of_mem _ hk)).1
        have c1 : ConnectedBelow indices deltas (i + 1) p p0 :=
          hrepold p p0 hp (by omega) (by rw [hpa, hlab p0 (by omega)])
        have c2 : ConnectedBelow indices deltas (i + 1) k q :=
          hrepold k q (by omega) hq (by rw [hqb, hlab k (by omega), hkl])
        have c3 := hedge p0 (List.mem_cons_self _ _)
        have c4 := hedge k (List.mem_cons_of_mem _ hk)
        exact Relation.EqvGen.trans _ _ _ c1 (Relation.EqvGen.trans _ _ _ c3
          (Relation.EqvGen.trans _ _ _ (Relation.EqvGen.symm _ _ c4) c2)))
    have hvp := hvalid1 p hp
    have hvq := hvalid1 q hq
    exact hQ _ _ hvp.1 hvp.2 hvq.1 hvq.2 h p q hp hq rfl rfl
  · intro id h1 h2
    have h2' : id < s1.top := h2
    show ∃ p, p < i + 1 ∧ Function.update st.labels i (st.labels p0) p = id
    obtain ⟨p, hp, hpl⟩ := hcover id h1 (by omega)
    exact ⟨p, by omega, by rw [hlab p (by omega), hpl]⟩

/-- One iteration of the first loop keeps the invariant and does not leave the function. -/
theorem scan_step_spec {indices : List Nat} {deltas : List Int} (hpre : Pre indices deltas)
    {heap : Allocator} (hheap : heap.NoFail) {i : Nat} (hi : i < indices.length) {st : Scan}
    (hinv : ScanInv indices deltas i st) :
    ∃ st1, scan_step indices deltas heap i st = some (st1, none) ∧
      ScanInv indices deltas (i + 1) st1 := by
  obtain ⟨ps, hhood, hfound, hall⟩ :=
    hood_loop_spec hpre.1 hpre.2.1 hi st.labels deltas [] hpre.2.2
  rw [List.nil_append] at hhood
  have hidx := to_longlong_of_lt (hpre.2.1 i hi)
  cases ps with
  | nil =>
    rw [List.map_nil] at hhood
    have hnone : ∀ p, p < indices.length → ∀ d, d ∈ deltas →
        (indices.getD i 0 : Int) + d = (indices.getD p 0 : Int) → False := by
      intro p hp d hd heq
      exact absurd (hall p hp d hd heq) (List.not_mem_nil _)
    have hins := insert_cases st.sets true true
    have hnew := insert_rep_new hinv.1 hinv.2.1 true true
    rcases hins with ⟨_, _, h | h⟩ | ⟨hid, _, _, htop, _⟩
    · exact absurd h (by decide)
    · exact absurd h (by decide)
    · have hne : (djs_insert st.sets true true).2 ≠ 0 := by
        have := hinv.2.1
        omega
      obtain ⟨_, _, _, _, hrepnew⟩ := hnew hne
      simp only [scan_step, hidx, hhood, hheap.2.2.1 i, hheap.2.2.2.1 i, if_neg hne]
      refine ⟨_, rfl, ?_⟩
      rw [hid]
      exact scan_inv_insert hpre hinv hnone (insert_inv hinv.1 true true) htop
        (fun y h1 h2 => insert_rep_old hinv.1 true true h1 h2) hrepnew
  | cons p0 rest =>
    rw [List.map_cons] at hhood
    have hp0 := (hfound p0 (List.mem_cons_self _ _)).1
    have hv0 := hinv.2.2.1 p0 hp0
    have hvrest : ∀ h, h ∈ rest.map st.labels → 1 ≤ h ∧ h < st.sets.top := by
      intro h hh
      obtain ⟨k, hk, hkl⟩ := List.mem_map.mp hh
      rw [← hkl]
      exact hinv.2.2.1 k (hfound k (List.mem_cons_of_mem _ hk)).1
    obtain ⟨s1, hloop, hs1, htop, hmono, hmerged, hleast⟩ :=
      merge_loop_spec (st.labels p0) (rest.map st.labels) st.sets hinv.1 hv0.1 hv0.2 hvrest
    have hne : ¬ ((0 : Int) = -1) := by decide
    simp only [scan_step, hidx, hhood, hloop, if_neg hne]
    exact ⟨_, rfl, scan_inv_merge hpre hi hinv hfound hall hs1 htop hmono hmerged hleast⟩

/-- The first loop runs to its end and establishes the invariant at `ninds`. -/
theorem scan_loop_spec {indices : List Nat} {deltas : List Int} (hpre : Pre indices deltas)
    {heap : Allocator} (hheap : heap.NoFail) :
    ∀ (k i : Nat) (st : Scan), i + k = indices.length → ScanInv indices deltas i st →
      ∃ st1, scan_loop indices deltas heap k i st = some (st1, none) ∧
        ScanInv indices deltas indices.length st1 := by
  intro k
  induction k with
  | zero =>
    intro i st hik hinv
    have : i = indices.length := by omega
    subst this
    exact ⟨st, rfl, hinv⟩
  | succ k ih =>
    intro i st hik hinv
    obtain ⟨st1, hstep, hinv1⟩ := scan_step_spec hpre hheap (by omega) hinv
    obtain ⟨st2, hloop, hinv2⟩ := ih (i + 1) st1 (by omega) hinv1
    refine ⟨st2, ?_, hinv2⟩
    simp only [scan_loop, hstep]
    exact hloop

theorem scan_inv_init (indices : List Nat) (deltas : List Int) (size : Nat)
    (parent0 rank0 labels0 : Nat → Nat) :
    ScanInv indices deltas 0
      { sets := { parent := parent0, rank := rank0, top := 1, size := size },
        labels := labels0 } :=
  ⟨fun x h1 h2 => by simp only at h2; omega, le_refl _, fun p hp => by omega,
    fun p q hp _ => by omega, fun id h1 h2 => by simp only at h2; omega⟩

/-! ## The second pass -/

theorem max_below_congr {f g : Nat → Nat} :
    ∀ p, (∀ q, q < p → f q = g q) → max_below f p = max_below g p := by
  intro p
  induction p with
  | zero => intro _; rfl
  | succ p ih =>
    intro h
    simp only [max_below]
    rw [ih (fun q hq => h q (by omega)), h p (by omega)]

theorem max_below_update (f : Nat → Nat) (i v : Nat) {p : Nat} (hp : p ≤ i) :
    max_below (Function.update f i v) p = max_below f p :=
  max_below_congr p (fun q hq => Function.update_noteq (by omega) _ _)

/-- One iteration of the second loop keeps its invariant. -/
theorem pack_step_spec {s : DisjointSet} (hs : s.Inv) {L : Nat → Nat} {i : Nat}
    {pk : Pack} (hinv : PackInv s L i pk) :
    ∃ pk1, pack_step i pk = some pk1 ∧ PackInv s L (i + 1) pk1 := by
  obtain ⟨hc, hrest, hdone, hdom, hinj, hcnt, hlt, hsurj, hhist⟩ := hinv
  have hpkinv := compressed_inv hs hc
  obtain ⟨t, hfind, hct⟩ := find_compressed hpkinv (pk.labels i)
  have hli := hrest i (le_refl i)
  rw [hli, compressed_rep hs hc] at hfind
  have hc1 := compressed_trans hs hc hct
  have hmb : ∀ v, max_below (Function.update pk.labels i v) (i + 1) =
      max (max_below pk.labels i) v := by
    intro v
    simp only [max_below]
    rw [max_below_update pk.labels i v (le_refl i), Function.update_same]
  by_cases hmap : pk.map (rep s (L i)) = 0
  · have hnew : ∀ q, q < i → rep s (L q) ≠ rep s (L i) := by
      intro q hq e
      have := (hdone q hq).2
      rw [e] at this
      exact this hmap
    have hm1 : ∀ r, r ≠ rep s (L i) →
        Function.update pk.map (rep s (L i)) pk.counter r = pk.map r :=
      fun r hr => Function.update_noteq hr _ _
    have hm2 : Function.update pk.map (rep s (L i)) pk.counter (rep s (L i)) = pk.counter :=
      Function.update_same _ _ _
    have hstep : pack_step i pk = some
        { sets := t,
          labels := Function.update pk.labels i
            (Function.update pk.map (rep s (L i)) pk.counter (rep s (L i))),
          map := Function.update pk.map (rep s (L i)) pk.counter,
          counter := pk.counter + 1 } := by
      simp only [pack_step, hli, hfind, hmap, if_true]
    refine ⟨_, hstep, hc1, ?_, ?_, ?_, ?_, ?_, ?_, ?_, ?_⟩
    · intro p hp
      show Function.update pk.labels i _ p = L p
      rw [Function.update_noteq (by omega)]; exact hrest p (by omega)
    · intro p hp
      show Function.update pk.labels i _ p =
          Function.update pk.map (rep s (L i)) pk.counter (rep s (L p)) ∧
        Function.update pk.map (rep s (L i)) pk.counter (rep s (L p)) ≠ 0
      by_cases hpi : p = i
      · rw [hpi, Function.update_same, hm2]
        exact ⟨rfl, by omega⟩
      · have hp' : p < i := by omega
        rw [Function.update_noteq hpi, hm1 _ (hnew p hp')]
        exact hdone p hp'
    · intro r hr
      have hr' : Function.update pk.map (rep s (L i)) pk.counter r ≠ 0 := hr
      by_cases hri : r = rep s (L i)
      · exact ⟨i, by omega, hri.symm⟩
      · rw [hm1 r hri] at hr'
        obtain ⟨p, hp, hpr⟩ := hdom r hr'
        exact ⟨p, by omega, hpr⟩
    · intro r r1 hr he
      have hr' : Function.update pk.map (rep s (L i)) pk.counter r ≠ 0 := hr
      have he' : Function.update pk.map (rep s (L i)) pk.counter r =
        Function.update pk.map (rep s (L i)) pk.counter r1 := he
      by_cases hri : r = rep s (L i)
      · by_cases hr1 : r1 = rep s (L i)
        · rw [hri, hr1]
        · rw [hri, hm2, hm1 r1 hr1] at he'
          have := hlt r1
          omega
      · by_cases hr1 : r1 = rep s (L i)
        · rw [hr1, hm2, hm1 r hri] at he'
          have := hlt r
          omega
        · rw [hm1 r hri] at hr'
          rw [hm1 r hri, hm1 r1 hr1] at he'
          exact hinj r r1 hr' he'
    · show pk.counter + 1 = 1 + max_below (Function.update pk.labels i _) (i + 1)
      rw [hmb, hm2]; omega
    · intro r
      show Function.update pk.map (rep s (L i)) pk.counter r < pk.counter + 1
      by_cases hri : r = rep s (L i)
      · rw [hri, hm2]; omega
      · rw [hm1 r hri]
        have := hlt r
        omega
    · intro v hv1 hv2
      have hv2' : v < pk.counter + 1 := hv2
      show ∃ r, Function.update pk.map (rep s (L i)) pk.counter r = v
      by_cases hvc : v = pk.counter
      · exact ⟨rep s (L i), by rw [hm2, hvc]⟩
      · obtain ⟨r, hr⟩ := hsurj v hv1 (by omega)
        refine ⟨r, ?_⟩
        rw [hm1 r (fun e => by rw [e, hmap] at hr; omega)]
        exact hr
    · intro p hp
      show Function.update pk.labels i _ p ≤ 1 + max_below (Function.update pk.labels i _) p ∧
        (Function.update pk.labels i _ p = 1 + max_below (Function.update pk.labels i _) p ↔ _)
      rw [max_below_update pk.labels i _ (by omega : p ≤ i)]
      by_cases hpi : p = i
      · rw [hpi, Function.update_same, hm2]
        exact ⟨by omega, fun _ => hnew, fun _ => hcnt⟩
      · rw [Function.update_noteq hpi]
        exact hhist p (by omega)
  · obtain ⟨q0, hq0, hq0r⟩ := hdom _ hmap
    have hltj := hlt (rep s (L i))
    have hstep : pack_step i pk = some
        { sets := t, labels := Function.update pk.labels i (pk.map (rep s (L i))),
          map := pk.map, counter := pk.counter } := by
      simp only [pack_step, hli, hfind, hmap, if_false]
    refine ⟨_, hstep, hc1, ?_, ?_, ?_, hinj, ?_, hlt, hsurj, ?_⟩
    · intro p hp
      show Function.update pk.labels i _ p = L p
      rw [Function.update_noteq (by omega)]; exact hrest p (by omega)
    · intro p hp
      show Function.update pk.labels i _ p = pk.map (rep s (L p)) ∧ pk.map (rep s (L p)) ≠ 0
      by_cases hpi : p = i
      · rw [hpi, Function.update_same]
        exact ⟨rfl, hmap⟩
      · rw [Function.update_noteq hpi]
        exact hdone p (by omega)
    · intro r hr
      obtain ⟨p, hp, hpr⟩ := hdom r hr
      exact ⟨p, by omega, hpr⟩
    · show pk.counter = 1 + max_below (Function.update pk.labels i _) (i + 1)
      rw [hmb]; omega
    · intro p hp
      show Function.update pk.labels i _ p ≤ 1 + max_below (Function.update pk.labels i _) p ∧
        (Function.update pk.labels i _ p = 1 + max_below (Function.update pk.labels i _) p ↔ _)
      rw [max_below_update pk.labels i _ (by omega : p ≤ i)]
      by_cases hpi : p = i
      · rw [hpi, Function.update_same]
        refine ⟨by omega, fun h => by omega, fun h => absurd hq0r (h q0 hq0)⟩
      · rw [Function.update_noteq hpi]
        exact hhist p (by omega)

theorem pack_loop_spec {s : DisjointSet} (hs : s.Inv) {L : Nat → Nat} {n : Nat} :
    ∀ (k i : Nat) (pk : Pack), i + k = n → PackInv s L i pk →
      ∃ pk1, pack_loop k i pk = some pk1 ∧ PackInv s L n pk1 := by
  intro k
  induction k with
  | zero =>
    intro i pk hik hinv
    have : i = n := by omega
    subst this
    exact ⟨pk, rfl, hinv⟩
  | succ k ih =>
    intro i pk hik hinv
    obtain ⟨pk1, hstep, hinv1⟩ := pack_step_spec hs hinv
    obtain ⟨pk2, hloop, hinv2⟩ := ih (i + 1) pk1 (by omega) hinv1
    refine ⟨pk2, ?_, hinv2⟩
    simp only [pack_loop, hstep]
    exact hloop

theorem pack_inv_init (s : DisjointSet) (L : Nat → Nat) :
    PackInv s L 0 { sets := s, labels := L, map := fun _ => 0, counter := 1 } :=
  ⟨compressed_refl s, fun _ _ => rfl, fun p hp => by omega, fun r hr => absurd rfl hr,
    fun r _ hr => absurd rfl hr, rfl, fun _ => Nat.lt_succ_self 0,
    fun v h1 h2 => by simp only at h2; omega, fun p hp => by omega⟩

/-! ## The whole function -/

theorem read_labels_length (n : Nat) (f : Nat → Nat) : (read_labels n f).length = n := by
  simp [read_labels]

theorem read_labels_getD {n : Nat} (f : Nat → Nat) {a : Nat} (ha : a < n) :
    (read_labels n f).getD a 0 = f a := by
  rw [List.getD_eq_getElem _ 0 (by rw [read_labels_length]; exact ha)]
  simp [read_labels]

theorem mem_read_labels {n : Nat} {f : Nat → Nat} {v : Nat} :
    v ∈ read_labels n f ↔ ∃ p, p < n ∧ f p = v := by
  simp [read_labels]

theorem read_labels_take_max {n : Nat} (f : Nat → Nat) :
    ∀ i, i ≤ n → ((read_labels n f).take i).foldl max 0 = max_below f i := by
  intro i hi
  have htake : (read_labels n f).take i = read_labels i f := by
    unfold read_labels
    rw [← List.map_take, List.take_range, Nat.min_eq_left hi]
  rw [htake]
  clear htake hi
  induction i with
  | zero => rfl
  | succ i ih =>
    unfold read_labels at ih ⊢
    rw [List.range_succ, List.map_append, List.foldl_append, ih]
    rfl

theorem pre_of_pairwise {indices : List Nat} {deltas : List Int}
    (hasc : indices.Pairwise (· < ·)) (hlt : ∀ v, v ∈ indices → v < 2 ^ 63)
    (hd : ∀ d, d ∈ deltas → -2 ^ 63 ≤ d ∧ d < 0) : Pre indices deltas := by
  refine ⟨asc_of_pairwise hasc, fun i hi => ?_, hd⟩
  rw [List.getD_eq_getElem _ 0 hi]
  exact hlt _ (List.getElem_mem _)

/-- Under the preconditions and without allocation failure both passes run to their end, with
their invariants, and the function returns `0`. -/
theorem label_core {indices : List Nat} {deltas : List Int} (hpre : Pre indices deltas)
    {heap : Allocator} (hheap : heap.NoFail) (labels0 : Nat → Nat) :
    ∃ sets st pk, djs_create N_SETS heap.sets_ok heap.parent0 heap.rank0 = some sets ∧
      first_pass indices labels0 deltas heap sets = some (st, none) ∧
      ScanInv indices deltas indices.length st ∧
      second_pass indices.length st = some pk ∧
      PackInv st.sets st.labels indices.length pk ∧
      label_region_sparse indices labels0 deltas heap =
        some (0, read_labels indices.length pk.labels) := by
  have hcreate : djs_create N_SETS heap.sets_ok heap.parent0 heap.rank0 =
      some { parent := heap.parent0, rank := heap.rank0, top := 1, size := N_SETS } := by
    unfold djs_create; rw [hheap.1]; rfl
  obtain ⟨st, hscan, hinv⟩ := scan_loop_spec hpre hheap indices.length 0
    { sets := { parent := heap.parent0, rank := heap.rank0, top := 1, size := N_SETS },
      labels := labels0 } (by omega) (scan_inv_init indices deltas N_SETS _ _ labels0)
  obtain ⟨pk, hpack, hpinv⟩ := pack_loop_spec hinv.1 indices.length 0
    { sets := st.sets, labels := st.labels, map := fun _ => 0, counter := 1 }
    (Nat.zero_add indices.length) (pack_inv_init st.sets st.labels)
  refine ⟨_, st, pk, hcreate, hscan, hinv, hpack, hpinv, ?_⟩
  have h1 : first_pass indices labels0 deltas heap
      { parent := heap.parent0, rank := heap.rank0, top := 1, size := N_SETS } =
      some (st, none) := hscan
  have h2 : second_pass indices.length st = some pk := hpack
  simp only [label_region_sparse, hcreate, hheap.2.1, h1, hheap.2.2.2.2, h2, if_true]

theorem pack_props {s : DisjointSet} {L : Nat → Nat} {n : Nat} {pk : Pack}
    (hpinv : PackInv s L n pk) {E : Nat → Nat → Prop}
    (hE : ∀ a b, a < n → b < n → (rep s (L a) = rep s (L b) ↔ E a b)) :
    (∀ a b, a < n → b < n → (pk.labels a = pk.labels b ↔ E a b)) ∧
    (∀ p, p < n → pk.labels p ≤ 1 + max_below pk.labels p ∧
      (pk.labels p = 1 + max_below pk.labels p ↔ ∀ q, q < p → ¬ E q p)) := by
  obtain ⟨_, _, hdone, _, hinj, _, _, _, hhist⟩ := hpinv
  constructor
  · intro a b ha hb
    rw [← hE a b ha hb, (hdone a ha).1, (hdone b hb).1]
    exact ⟨fun h => hinj _ _ (hdone a ha).2 h, fun h => by rw [h]⟩
  · intro p hp
    refine ⟨(hhist p hp).1, (hhist p hp).2.trans ?_⟩
    constructor
    · intro h q hq hqp
      exact h q hq ((hE q p (by omega) hp).mpr hqp)
    · intro h q hq hqp
      exact h q hq ((hE q p (by omega) hp).mp hqp)

theorem first_encounter_unique {n : Nat} {f g : Nat → Nat} {E : Nat → Nat → Prop}
    (hf : ∀ a b, a < n → b < n → (f a = f b ↔ E a b))
    (hg : ∀ a b, a < n → b < n → (g a = g b ↔ E a b))
    (hfn : ∀ p, p < n → (∀ q, q < p → ¬ E q p) → f p = 1 + max_below f p)
    (hgn : ∀ p, p < n → (∀ q, q < p → ¬ E q p) → g p = 1 + max_below g p) :
    ∀ p, p < n → f p = g p := by
  intro p
  induction p using Nat.strong_induction_on with
  | _ p ih =>
    intro hp
    by_cases hnew : ∀ q, q < p → ¬ E q p
    · rw [hfn p hp hnew, hgn p hp hnew,
        max_below_congr p (fun q hq => ih q hq (by omega))]
    · push_neg at hnew
      obtain ⟨q, hq, hqp⟩ := hnew
      have e1 := (hf q p (by omega) hp).mpr hqp
      have e2 := (hg q p (by omega) hp).mpr hqp
      rw [← e1, ← e2]
      exact ih q hq (by omega)

theorem region_count_eq {indices : List Nat} {deltas : List Int} {st : Scan} {pk : Pack}
    (hinv : ScanInv indices deltas indices.length st)
    (hpinv : PackInv st.sets st.labels indices.length pk) :
    region_count st.sets + 1 = pk.counter := by
  obtain ⟨hs, _, hvalid, _, hcover⟩ := hinv
  obtain ⟨_, _, hdone, hdom, hinj, hcnt, hlt, hsurj, _⟩ := hpinv
  have hmem : ∀ r, r ∈ (Finset.Ico 1 st.sets.top).image (rep st.sets) ↔ pk.map r ≠ 0 := by
    intro r
    rw [Finset.mem_image]
    constructor
    · rintro ⟨x, hx, rfl⟩
      obtain ⟨hx1, hx2⟩ := Finset.mem_Ico.mp hx
      obtain ⟨p, hp, hpl⟩ := hcover x hx1 hx2
      rw [← hpl]
      exact (hdone p hp).2
    · intro hr
      obtain ⟨p, hp, hpr⟩ := hdom r hr
      exact ⟨st.labels p, Finset.mem_Ico.mpr (hvalid p hp), hpr⟩
  have hinjOn : Set.InjOn pk.map ((Finset.Ico 1 st.sets.top).image (rep st.sets) : Finset Nat) := by
    intro r hr r1 _ he
    exact hinj r r1 ((hmem r).mp hr) he
  have himage : ((Finset.Ico 1 st.sets.top).image (rep st.sets)).image pk.map =
      Finset.Ico 1 pk.counter := by
    ext v
    rw [Finset.mem_image, Finset.mem_Ico]
    constructor
    · rintro ⟨r, hr, rfl⟩
      have h1 := (hmem r).mp hr
      have h2 := hlt r
      omega
    · rintro ⟨hv1, hv2⟩
      obtain ⟨r, hr⟩ := hsurj v hv1 hv2
      exact ⟨r, (hmem r).mpr (by omega), hr⟩
  have hcard := Finset.card_image_of_injOn hinjOn
  rw [himage, Nat.card_Ico] at hcard
  unfold region_count
  omega

/-! ## Any run of the first pass -/

theorem merge_loop_inv (x : Nat) :
    ∀ (hood : List Nat) (s s1 : DisjointSet) (c : Int), s.Inv →
      merge_loop s x hood = some (s1, c) → s1.Inv ∧ (c = 0 ∨ c = -1) := by
  intro hood
  induction hood with
  | nil =>
    intro s s1 c hs h
    simp only [merge_loop, Option.some.injEq, Prod.mk.injEq] at h
    rw [← h.1, ← h.2]
    exact ⟨hs, Or.inl rfl⟩
  | cons y rest ih =>
    intro s s1 c hs h
    cases hm : djs_merge s x y with
    | none => simp only [merge_loop, hm] at h; cases h
    | some r =>
      obtain ⟨t, status⟩ := r
      have ht := (merge_result hs hm).1
      simp only [merge_loop, hm] at h
      by_cases hst : status = 1
      · rw [if_pos hst] at h
        simp only [Option.some.injEq, Prod.mk.injEq] at h
        rw [← h.1, ← h.2]
        exact ⟨ht, Or.inr rfl⟩
      · rw [if_neg hst] at h
        exact ih t s1 c ht h

theorem scan_step_inv {indices : List Nat} {deltas : List Int} {heap : Allocator} {i : Nat}
    {st st1 : Scan} {code : Option Int} (hs : st.sets.Inv)
    (h : scan_step indices deltas heap i st = some (st1, code)) :
    st1.sets.Inv ∧ code ≠ some 0 := by
  cases hh : hood_loop indices st.labels indices.length
      (to_longlong (indices.getD i 0)) deltas [] with
  | none => simp only [scan_step, hh] at h; cases h
  | some hood =>
    cases hood with
    | nil =>
      simp only [scan_step, hh] at h
      by_cases hz : (djs_insert st.sets (heap.newparent_ok i) (heap.newrank_ok i)).2 = 0
      · rw [if_pos hz] at h
        simp only [Option.some.injEq, Prod.mk.injEq] at h
        rw [← h.1, ← h.2]
        exact ⟨insert_inv hs _ _, by decide⟩
      · rw [if_neg hz] at h
        simp only [Option.some.injEq, Prod.mk.injEq] at h
        rw [← h.1, ← h.2]
        exact ⟨insert_inv hs _ _, by simp⟩
    | cons hood0 rest =>
      simp only [scan_step, hh] at h
      cases hm : merge_loop st.sets hood0 rest with
      | none => simp only [hm] at h; cases h
      | some r =>
        obtain ⟨t, status⟩ := r
        have ht := (merge_loop_inv hood0 rest st.sets t status hs hm).1
        simp only [hm] at h
        by_cases hst : status = -1
        · rw [if_pos hst] at h
          simp only [Option.some.injEq, Prod.mk.injEq] at h
          rw [← h.1, ← h.2]
          exact ⟨ht, by decide⟩
        · rw [if_neg hst] at h
          simp only [Option.some.injEq, Prod.mk.injEq] at h
          rw [← h.1, ← h.2]
          exact ⟨ht, by simp⟩

theorem scan_loop_inv {indices : List Nat} {deltas : List Int} {heap : Allocator} :
    ∀ (k i : Nat) (st st1 : Scan) (code : Option Int), st.sets.Inv →
      scan_loop indices deltas heap k i st = some (st1, code) →
      st1.sets.Inv ∧ code ≠ some 0 := by
  intro k
  induction k with
  | zero =>
    intro i st st1 code hs h
    simp only [scan_loop, Option.some.injEq, Prod.mk.injEq] at h
    rw [← h.1, ← h.2]
    exact ⟨hs, by simp⟩
  | succ k ih =>
    intro i st st1 code hs h
    cases hstep : scan_step indices deltas heap i st with
    | none => simp only [scan_loop, hstep] at h; cases h
    | some r =>
      obtain ⟨t, oc⟩ := r
      have ht := scan_step_inv hs hstep
      cases oc with
      | none =>
        simp only [scan_loop, hstep] at h
        exact ih (i + 1) t st1 code ht.1 h
      | some c =>
        simp only [scan_loop, hstep, Option.some.injEq, Prod.mk.injEq] at h
        rw [← h.1, ← h.2]
        exact ht

/-- A call that returns `0` went through both passes. -/
theorem label_success {indices : List Nat} {labels0 : Nat → Nat} {deltas : List Int}
    {heap : Allocator} {labels : List Nat}
    (h : label_region_sparse indices labels0 deltas heap = some (0, labels)) :
    ∃ sets st pk, djs_create N_SETS heap.sets_ok heap.parent0 heap.rank0 = some sets ∧
      first_pass indices labels0 deltas heap sets = some (st, none) ∧ st.sets.Inv ∧
      second_pass indices.length st = some pk ∧
      labels = read_labels indices.length pk.labels := by
  unfold label_region_sparse at h
  cases hc : djs_create N_SETS heap.sets_ok heap.parent0 heap.rank0 with
  | none => simp [hc] at h
  | some sets =>
    have hsets : sets.Inv := (reachable_inv (Reachable.create _ _ _ _ sets hc)).1
    cases hh : heap.hood_ok with
    | false => simp [hc, hh] at h
    | true =>
      simp only [hc, hh] at h
      cases hf : first_pass indices labels0 deltas heap sets with
      | none => simp [hf] at h
      | some r =>
        obtain ⟨st, oc⟩ := r
        have hst := scan_loop_inv indices.length 0 _ st oc hsets hf
        cases oc with
        | some c =>
          simp only [hf, Option.some.injEq, Prod.mk.injEq] at h
          exact absurd (by rw [h.1]) hst.2
        | none =>
          simp only [hf] at h
          cases hm : heap.map_ok with
          | false => simp [hm] at h
          | true =>
            simp only [hm, if_true] at h
            cases hp : second_pass indices.length st with
            | none => simp [hp] at h
            | some pk =>
              simp only [hp, Option.some.injEq, Prod.mk.injEq, true_and] at h
              exact ⟨sets, st, pk, rfl, hf, hst.1, hp, h.symm⟩

/-! ## The claims on `label_region_sparse.c` -/

/-- C1: for a strictly ascending index list with all values below `2 ^ 63` and strictly
negative deltas, when no allocation fails `label_region_sparse` returns `0`, and two positions
get the same label exactly when they are connected in the undirected graph that links `p` and
`q` whenever `indices[q] + d = indices[p]` for some delta `d`. -/
theorem label_region_sparse_components (indices : List Nat) (labels0 : Nat → Nat)
    (deltas : List Int) (heap : Allocator) (hasc : indices.Pairwise (· < ·))
    (hlt : ∀ v, v ∈ indices → v < 2 ^ 63) (hd : ∀ d, d ∈ deltas → -2 ^ 63 ≤ d ∧ d < 0)
    (hheap : heap.NoFail) :
    ∃ labels, label_region_sparse indices labels0 deltas heap = some (0, labels) ∧
      labels.length = indices.length ∧
      ∀ a b, a < indices.length → b < indices.length →
        (labels.getD a 0 = labels.getD b 0 ↔ Connected indices deltas a b) := by
  obtain ⟨_, st, pk, _, _, hinv, _, hpinv, hrun⟩ :=
    label_core (pre_of_pairwise hasc hlt hd) hheap labels0
  refine ⟨_, hrun, read_labels_length _ _, fun a b ha hb => ?_⟩
  rw [read_labels_getD _ ha, read_labels_getD _ hb]
  refine (pack_props hpinv (E := Connected indices deltas) ?_).1 a b ha hb
  intro a b ha hb
  rw [hinv.2.2.2.1 a b ha hb, connectedBelow_length]

/-- C2 as stated fails on inputs that meet the preconditions of the specification (strictly
ascending indices, deltas `≤ 0`).  With indices `[5]`, deltas `[0]` and a zeroed `labels`
buffer the search finds position `0` itself, no set is inserted, and the call returns `0` with
labels `[1]` although the structure holds no region.  With indices `[5, 2 ^ 64 - 5]`, deltas
`[-10]` the candidate `5 - 10` wraps to `2 ^ 64 - 5`, which is found at position `1`, and the
call returns `0` with labels `[1, 2]` although the structure holds one region. -/
theorem compaction_not_dense_outside_preconditions :
    (((djs_create N_SETS true (fun _ => 0) (fun _ => 0)).bind fun sets =>
        (first_pass [5] (fun _ => 0) [0] (Allocator.plenty 0) sets).map fun r =>
          (r.2, region_count r.1.sets)) = some (none, 0) ∧
      label_region_sparse [5] (fun _ => 0) [0] (Allocator.plenty 0) = some (0, [1])) ∧
    (((djs_create N_SETS true (fun _ => 0) (fun _ => 0)).bind fun sets =>
        (first_pass [5, 18446744073709551611] (fun _ => 0) [-10] (Allocator.plenty 0) sets).map
          fun r => (r.2, region_count r.1.sets)) = some (none, 1) ∧
      label_region_sparse [5, 18446744073709551611] (fun _ => 0) [-10] (Allocator.plenty 0) =
        some (0, [1, 2])) := by
  decide

/-- C2, amended: for a strictly ascending index list with all values below `2 ^ 63` and
strictly negative deltas, when no allocation fails the function returns `0` and the values in
`labels` are exactly the integers `1, ..., K`, where `K` is the number of distinct
representatives (`rep`, the value that `djs_find` returns) in the structure that the first pass
leaves. -/
theorem compaction_dense (indices : List Nat) (labels0 : Nat → Nat)
    (deltas : List Int) (heap : Allocator) (hasc : indices.Pairwise (· < ·))
    (hlt : ∀ v, v ∈ indices → v < 2 ^ 63) (hd : ∀ d, d ∈ deltas → -2 ^ 63 ≤ d ∧ d < 0)
    (hheap : heap.NoFail) :
    ∃ sets st labels, djs_create N_SETS heap.sets_ok heap.parent0 heap.rank0 = some sets ∧
      first_pass indices labels0 deltas heap sets = some (st, none) ∧
      label_region_sparse indices labels0 deltas heap = some (0, labels) ∧
      (∀ z, ∃ t, djs_find st.sets z = some (t, rep st.sets z)) ∧
      ∀ v, v ∈ labels ↔ (1 ≤ v ∧ v ≤ region_count st.sets) := by
  obtain ⟨sets, st, pk, hcreate, hscan, hinv, _, hpinv, hrun⟩ :=
    label_core (pre_of_pairwise hasc hlt hd) hheap labels0
  refine ⟨sets, st, _, hcreate, hscan, hrun, fun z => ?_, fun v => ?_⟩
  · obtain ⟨t, ht, _⟩ := find_compressed hinv.1 z
    exact ⟨t, ht⟩
  have hK := region_count_eq hinv hpinv
  obtain ⟨_, _, hdone, hdom, _, _, hltc, hsurj, _⟩ := hpinv
  rw [mem_read_labels]
  constructor
  · rintro ⟨p, hp, rfl⟩
    have h1 := (hdone p hp).2
    have h2 := hltc (rep st.sets (st.labels p))
    rw [(hdone p hp).1]
    omega
  · rintro ⟨hv1, hv2⟩
    obtain ⟨r, hr⟩ := hsurj v hv1 (by omega)
    obtain ⟨p, hp, hpr⟩ := hdom r (by omega)
    exact ⟨p, hp, by rw [(hdone p hp).1, hpr, hr]⟩

/-- C3: whenever `label_region_sparse` returns `0`, the labels are numbered by first
encounter: `labels[0] = 1`; for `i > 0`, `labels[i] ≤ 1 + max(labels[0..i))`, with equality
exactly when no earlier position has the representative of position `i` in the structure that
the first pass leaves (position `i` is the first member of its region; `rep` is the value that
`djs_find` returns); and the second pass
writes these same labels from any well-formed structure and any ids that put the positions
under common representatives in the same way. -/
theorem compaction_first_encounter (indices : List Nat) (labels0 : Nat → Nat)
    (deltas : List Int) (heap : Allocator) (labels : List Nat)
    (hrun : label_region_sparse indices labels0 deltas heap = some (0, labels)) :
    ∃ sets st, djs_create N_SETS heap.sets_ok heap.parent0 heap.rank0 = some sets ∧
      first_pass indices labels0 deltas heap sets = some (st, none) ∧
      (∀ z, ∃ t, djs_find st.sets z = some (t, rep st.sets z)) ∧
      (0 < indices.length → labels.getD 0 0 = 1) ∧
      (∀ i, 0 < i → i < indices.length →
        labels.getD i 0 ≤ 1 + (labels.take i).foldl max 0 ∧
        (labels.getD i 0 = 1 + (labels.take i).foldl max 0 ↔
          ∀ p, p < i → rep st.sets (st.labels p) ≠ rep st.sets (st.labels i))) ∧
      (∀ (sets1 : DisjointSet) (ids : Nat → Nat), sets1.Inv →
        (∀ a b, a < indices.length → b < indices.length →
          (rep sets1 (ids a) = rep sets1 (ids b) ↔
            rep st.sets (st.labels a) = rep st.sets (st.labels b))) →
        ∃ pk, second_pass indices.length { sets := sets1, labels := ids } = some pk ∧
          read_labels indices.length pk.labels = labels) := by
  obtain ⟨sets, st, pk, hcreate, hfirst, hst, hsecond, hlabels⟩ := label_success hrun
  obtain ⟨pk0, hpack, hpinv⟩ := pack_loop_spec hst indices.length 0
    { sets := st.sets, labels := st.labels, map := fun _ => 0, counter := 1 }
    (Nat.zero_add indices.length) (pack_inv_init st.sets st.labels)
  have hpk : pk0 = pk := by
    have h1 : second_pass indices.length st = some pk0 := hpack
    rw [hsecond] at h1
    exact (Option.some.inj h1).symm
  subst hpk
  obtain ⟨heq, hhist⟩ := pack_props hpinv
    (E := fun a b => rep st.sets (st.labels a) = rep st.sets (st.labels b))
    (fun _ _ _ _ => Iff.rfl)
  subst hlabels
  refine ⟨sets, st, hcreate, hfirst, fun z => ?_, ?_, ?_, ?_⟩
  · obtain ⟨t, ht, _⟩ := find_compressed hst z
    exact ⟨t, ht⟩
  · intro h0
    rw [read_labels_getD _ h0]
    exact ((hhist 0 h0).2).mpr (fun q hq => by omega)
  · intro i _ hi
    rw [read_labels_getD _ hi, read_labels_take_max _ i (le_of_lt hi)]
    exact hhist i hi
  · intro sets1 ids hsets hids
    obtain ⟨pk1, hpack1, hpinv1⟩ := pack_loop_spec hsets indices.length 0
      { sets := sets1, labels := ids, map := fun _ => 0, counter := 1 }
      (Nat.zero_add indices.length) (pack_inv_init sets1 ids)
    obtain ⟨heq1, hhist1⟩ := pack_props hpinv1 hids
    refine ⟨pk1, hpack1, ?_⟩
    unfold read_labels
    apply List.map_congr_left
    intro p hp
    exact first_encounter_unique heq1 heq (fun p hp h => (hhist1 p hp).2.mpr h)
      (fun p hp h => (hhist p hp).2.mpr h) p (List.mem_range.mp hp)

theorem line_indices_asc : line_indices.Pairwise (· < ·) := by
  decide

theorem line_indices_small : ∀ v, v ∈ line_indices → v < 2 ^ 63 := by
  decide

theorem line_deltas_negative : ∀ d, d ∈ line_deltas → -2 ^ 63 ≤ d ∧ d < 0 := by
  decide

theorem plenty_noFail (junk : Nat) : (Allocator.plenty junk).NoFail :=
  ⟨rfl, rfl, fun _ => rfl, fun _ => rfl, rfl⟩

theorem corner_indices_asc : corner_indices.Pairwise (· < ·) := by
  decide

theorem corner_indices_small : ∀ v, v ∈ corner_indices → v < 2 ^ 63 := by
  decide

theorem grid_deltas_negative : ∀ d, d ∈ grid_deltas → -2 ^ 63 ≤ d ∧ d < 0 := by
  decide

/-- C1 on the 1D scenario. -/
theorem label_region_sparse_components_witness :
    line_indices.Pairwise (· < ·) ∧ (∀ v, v ∈ line_indices → v < 2 ^ 63) ∧
    (∀ d, d ∈ line_deltas → -2 ^ 63 ≤ d ∧ d < 0) ∧ (Allocator.plenty 0).NoFail ∧
    ∃ labels, label_region_sparse line_indices (fun _ => 0) line_deltas (Allocator.plenty 0) =
        some (0, labels) ∧
      labels.length = line_indices.length ∧
      ∀ a b, a < line_indices.length → b < line_indices.length →
        (labels.getD a 0 = labels.getD b 0 ↔ Connected line_indices line_deltas a b) :=
  ⟨line_indices_asc, line_indices_small, line_deltas_negative, plenty_noFail 0,
    label_region_sparse_components line_indices (fun _ => 0) line_deltas (Allocator.plenty 0)
      line_indices_asc line_indices_small line_deltas_negative (plenty_noFail 0)⟩

/-- C2, amended, on the 1D scenario. -/
theorem compaction_dense_witness :
    line_indices.Pairwise (· < ·) ∧ (∀ v, v ∈ line_indices → v < 2 ^ 63) ∧
    (∀ d, d ∈ line_deltas → -2 ^ 63 ≤ d ∧ d < 0) ∧ (Allocator.plenty 0).NoFail ∧
    ∃ sets st labels,
      djs_create N_SETS (Allocator.plenty 0).sets_ok (Allocator.plenty 0).parent0
        (Allocator.plenty 0).rank0 = some sets ∧
      first_pass line_indices (fun _ => 0) line_deltas (Allocator.plenty 0) sets =
        some (st, none) ∧
      label_region_sparse line_indices (fun _ => 0) line_deltas (Allocator.plenty 0) =
        some (0, labels) ∧
      (∀ z, ∃ t, djs_find st.sets z = some (t, rep st.sets z)) ∧
      ∀ v, v ∈ labels ↔ (1 ≤ v ∧ v ≤ region_count st.sets) :=
  ⟨line_indices_asc, line_indices_small, line_deltas_negative, plenty_noFail 0,
    compaction_dense line_indices (fun _ => 0) line_deltas (Allocator.plenty 0)
      line_indices_asc line_indices_small line_deltas_negative (plenty_noFail 0)⟩

/-- C3 on the 1D scenario. -/
theorem compaction_first_encounter_witness :
    label_region_sparse line_indices (fun _ => 0) line_deltas (Allocator.plenty 0) =
      some (0, [1, 1, 1, 2, 2, 3]) ∧
    ∃ sets st,
      djs_create N_SETS (Allocator.plenty 0).sets_ok (Allocator.plenty 0).parent0
        (Allocator.plenty 0).rank0 = some sets ∧
      first_pass line_indices (fun _ => 0) line_deltas (Allocator.plenty 0) sets =
        some (st, none) ∧
      (∀ z, ∃ t, djs_find st.sets z = some (t, rep st.sets z)) ∧
      (0 < line_indices.length → [1, 1, 1, 2, 2, 3].getD 0 0 = 1) ∧
      (∀ i, 0 < i → i < line_indices.length →
        [1, 1, 1, 2, 2, 3].getD i 0 ≤ 1 + ([1, 1, 1, 2, 2, 3].take i).foldl max 0 ∧
        ([1, 1, 1, 2, 2, 3].getD i 0 = 1 + ([1, 1, 1, 2, 2, 3].take i).foldl max 0 ↔
          ∀ p, p < i → rep st.sets (st.labels p) ≠ rep st.sets (st.labels i))) ∧
      (∀ (sets1 : DisjointSet) (ids : Nat → Nat), sets1.Inv →
        (∀ a b, a < line_indices.length → b < line_indices.length →
          (rep sets1 (ids a) = rep sets1 (ids b) ↔
            rep st.sets (st.labels a) = rep st.sets (st.labels b))) →
        ∃ pk, second_pass line_indices.length { sets := sets1, labels := ids } = some pk ∧
          read_labels line_indices.length pk.labels = [1, 1, 1, 2, 2, 3]) :=
  ⟨by decide,
    compaction_first_encounter line_indices (fun _ => 0) line_deltas (Allocator.plenty 0)
      [1, 1, 1, 2, 2, 3] (by decide)⟩

theorem noFail_eq {heap : Allocator} (h : heap.NoFail) :
    heap = { sets_ok := true, hood_ok := true, newparent_ok := fun _ => true,
             newrank_ok := fun _ => true, map_ok := true, parent0 := heap.parent0,
             rank0 := heap.rank0 } := by
  obtain ⟨h1, h2, h3, h4, h5⟩ := h
  cases heap
  simp only at h1 h2 h3 h4 h5
  simp only [Allocator.mk.injEq, and_true]
  exact ⟨h1, h2, funext h3, funext h4, h5⟩

/-- C4: on indices `[0, 1, 2, 5, 6, 10]` with deltas `[-1]`, whatever the `labels` buffer and
the fresh memory hold, when no allocation fails `label_region_sparse` returns `0` and writes
the labels `[1, 1, 1, 2, 2, 3]`. -/
theorem label_line_scenario (labels0 : Nat → Nat) (heap : Allocator) (hheap : heap.NoFail) :
    label_region_sparse [0, 1, 2, 5, 6, 10] labels0 [-1] heap =
      some (0, [1, 1, 1, 2, 2, 3]) := by
  rw [noFail_eq hheap]
  rfl

/-- C4 with memory that reads as zero. -/
theorem label_line_scenario_witness :
    (Allocator.plenty 0).NoFail ∧
    label_region_sparse [0, 1, 2, 5, 6, 10] (fun _ => 0) [-1] (Allocator.plenty 0) =
      some (0, [1, 1, 1, 2, 2, 3]) :=
  ⟨plenty_noFail 0, label_line_scenario (fun _ => 0) (Allocator.plenty 0) (plenty_noFail 0)⟩

/-- C5 as stated fails: the block with row origin `922337203685477581` and column origin `0`
of a grid of width `10` has all its indices between `2 ^ 63` and `2 ^ 64`; there `index` is
negative as an `slr_longlong`, the test `index >= deltas[j]` fails for both deltas, and every
element becomes a region of its own. -/
theorem block_beyond_longlong_splits :
    0 + 2 < 10 ∧ (∀ v, v ∈ block3x3 10 922337203685477581 0 → v < 2 ^ 64) ∧
    label_region_sparse (block3x3 10 922337203685477581 0) (fun _ => 0) [-1, -10]
      (Allocator.plenty 0) = some (0, [1, 2, 3, 4, 5, 6, 7, 8, 9]) := by
  decide

theorem block_pre (r c : Nat) (hsmall : 10 * (r + 2) + c + 2 < 2 ^ 63) :
    Pre (block3x3 10 r c) [-1, -10] := by
  apply pre_of_pairwise
  · simp only [block3x3, List.pairwise_cons, List.mem_cons, List.mem_singleton, forall_eq_or_imp,
      forall_eq, List.not_mem_nil, false_implies, implies_true, List.Pairwise.nil, and_true]
    omega
  · simp only [block3x3, List.mem_cons, List.mem_singleton, forall_eq_or_imp, forall_eq,
      List.not_mem_nil, false_implies, implies_true, and_true]
    omega
  · decide

theorem block_edge_right (r c : Nat) (p : Nat) (hp : p = 0 ∨ p = 1 ∨ p = 3 ∨ p = 4 ∨ p = 6 ∨ p = 7) :
    Edge (block3x3 10 r c) [-1, -10] p (p + 1) := by
  refine ⟨?_, ?_, -1, by simp, ?_⟩
  · simp only [block3x3, List.length_cons, List.length_nil]; omega
  · simp only [block3x3, List.length_cons, List.length_nil]; omega
  · rcases hp with rfl | rfl | rfl | rfl | rfl | rfl <;> simp [block3x3] <;> omega

theorem block_edge_down (r c : Nat) (p : Nat) (hp : p = 0 ∨ p = 3) :
    Edge (block3x3 10 r c) [-1, -10] p (p + 3) := by
  refine ⟨?_, ?_, -10, by simp, ?_⟩
  · simp only [block3x3, List.length_cons, List.length_nil]; omega
  · simp only [block3x3, List.length_cons, List.length_nil]; omega
  · rcases hp with rfl | rfl <;> simp [block3x3] <;> omega

theorem block_connected (r c : Nat) :
    ∀ k, k < 9 → Connected (block3x3 10 r c) [-1, -10] 0 k := by
  have right : ∀ p, (p = 0 ∨ p = 1 ∨ p = 3 ∨ p = 4 ∨ p = 6 ∨ p = 7) →
      Connected (block3x3 10 r c) [-1, -10] p (p + 1) :=
    fun p hp => Relation.EqvGen.rel _ _ (block_edge_right r c p hp)
  have down : ∀ p, (p = 0 ∨ p = 3) → Connected (block3x3 10 r c) [-1, -10] p (p + 3) :=
    fun p hp => Relation.EqvGen.rel _ _ (block_edge_down r c p hp)
  have c0 : Connected (block3x3 10 r c) [-1, -10] 0 0 := Relation.EqvGen.refl _
  have c1 := Relation.EqvGen.trans _ _ _ c0 (right 0 (by omega))
  have c2 := Relation.EqvGen.trans _ _ _ c1 (right 1 (by omega))
  have c3 := Relation.EqvGen.trans _ _ _ c0 (down 0 (by omega))
  have c4 := Relation.EqvGen.trans _ _ _ c3 (right 3 (by omega))
  have c5 := Relation.EqvGen.trans _ _ _ c4 (right 4 (by omega))
  have c6 := Relation.EqvGen.trans _ _ _ c3 (down 3 (by omega))
  have c7 := Relation.EqvGen.trans _ _ _ c6 (right 6 (by omega))
  have c8 := Relation.EqvGen.trans _ _ _ c7 (right 7 (by omega))
  intro k hk
  interval_cases k
  · exact c0
  · exact c1
  · exact c2
  · exact c3
  · exact c4
  · exact c5
  · exact c6
  · exact c7
  · exact c8

/-- C5, amended: for grid width `10` and every contiguous 3x3 block whose indices are all below
`2 ^ 63` (`c + 2 < 10`, `10 * (r + 2) + c + 2 < 2 ^ 63`), when no allocation fails
`label_region_sparse` with deltas `[-1, -10]` returns `0` and all nine labels are `1`. -/
theorem label_block_scenario (r c : Nat) (labels0 : Nat → Nat) (heap : Allocator)
    (_hc : c + 2 < 10) (hsmall : 10 * (r + 2) + c + 2 < 2 ^ 63) (hheap : heap.NoFail) :
    label_region_sparse (block3x3 10 r c) labels0 [-1, -10] heap =
      some (0, [1, 1, 1, 1, 1, 1, 1, 1, 1]) := by
  obtain ⟨_, st, pk, _, _, hinv, _, hpinv, hrun⟩ := label_core (block_pre r c hsmall) hheap labels0
  have hlen : (block3x3 10 r c).length = 9 := rfl
  rw [hlen] at hinv hpinv hrun
  have hE : ∀ a b, a < 9 → b < 9 →
      (rep st.sets (st.labels a) = rep st.sets (st.labels b) ↔
        Connected (block3x3 10 r c) [-1, -10] a b) := by
    intro a b ha hb
    rw [hinv.2.2.2.1 a b ha hb, ← connectedBelow_length, hlen]
  obtain ⟨heq, hhist⟩ := pack_props hpinv hE
  have h0 : pk.labels 0 = 1 := ((hhist 0 (by omega)).2).mpr (fun q hq => by omega)
  have hall : ∀ k, k < 9 → pk.labels k = 1 := by
    intro k hk
    rw [← h0]
    exact ((heq 0 k (by omega) hk).mpr (block_connected r c k hk)).symm
  rw [hrun]
  show some ((0 : Int), [pk.labels 0, pk.labels 1, pk.labels 2, pk.labels 3, pk.labels 4,
    pk.labels 5, pk.labels 6, pk.labels 7, pk.labels 8]) = _
  rw [hall 0 (by omega), hall 1 (by omega), hall 2 (by omega), hall 3 (by omega),
    hall 4 (by omega), hall 5 (by omega), hall 6 (by omega), hall 7 (by omega),
    hall 8 (by omega)]

/-- C5, amended, on the block with row origin `2` and column origin `3`. -/
theorem label_block_scenario_witness :
    3 + 2 < 10 ∧ 10 * (2 + 2) + 3 + 2 < 2 ^ 63 ∧ (Allocator.plenty 0).NoFail ∧
    label_region_sparse (block3x3 10 2 3) (fun _ => 0) [-1, -10] (Allocator.plenty 0) =
      some (0, [1, 1, 1, 1, 1, 1, 1, 1, 1]) :=
  ⟨by decide, by decide, plenty_noFail 0,
    label_block_scenario 2 3 (fun _ => 0) (Allocator.plenty 0) (by decide) (by decide)
      (plenty_noFail 0)⟩

/-! ## Further claims on `disjoint_set.c` -/

theorem find_returns_rep {s : DisjointSet} (hs : s.Inv) (z : Nat) :
    ∃ t, djs_find s z = some (t, rep s z) := by
  obtain ⟨t, ht, _⟩ := find_compressed hs z
  exact ⟨t, ht⟩

/-- The structure that `djs_merge` leaves, in terms of the structure `t` after its two
`djs_find` calls. -/
theorem merge_detail {s : DisjointSet} (hs : s.Inv) {x y : Nat} (hx1 : 1 ≤ x) (hx2 : x < s.top)
    (hy1 : 1 ≤ y) (hy2 : y < s.top) :
    ∃ t, Compressed s t ∧
      djs_merge s x y = some
        (if t.rank (rep s x) > t.rank (rep s y) then
          { t with parent := Function.update t.parent (rep s y) (rep s x) }
        else if t.rank (rep s x) = t.rank (rep s y) then
          { t with parent := Function.update t.parent (rep s x) (rep s y),
                   rank := Function.update t.rank (rep s y) (t.rank (rep s y) + 1) }
        else { t with parent := Function.update t.parent (rep s x) (rep s y) }, 0) := by
  obtain ⟨t1, hf1, c1⟩ := find_compressed hs x
  have ht1 := compressed_inv hs c1
  obtain ⟨t2, hf2, c2⟩ := find_compressed ht1 y
  rw [compressed_rep hs c1] at hf2
  refine ⟨t2, compressed_trans hs c1 c2, ?_⟩
  have hn : ¬ (x ≥ s.top ∨ y ≥ s.top ∨ x ≤ 0 ∨ y ≤ 0) := by omega
  simp only [djs_merge, if_neg hn, hf1, hf2]
  by_cases hgt : t2.rank (rep s x) > t2.rank (rep s y)
  · simp only [if_pos hgt]
  · simp only [if_neg hgt]
    by_cases heq : t2.rank (rep s x) = t2.rank (rep s y)
    · simp only [if_pos heq]
    · simp only [if_neg heq]

/-- C11: on a reachable structure every successful `djs_insert`, also one that doubles the
capacity (`size ≤ top` before the call), leaves the parent and rank entries of every id of
`[1, top)` as they were, and `djs_find` returns for such an id what it returned before. -/
theorem growth_preserves_sets (s : DisjointSet) (hs : Reachable s)
    (newparent_ok newrank_ok : Bool) (hok : (djs_insert s newparent_ok newrank_ok).2 ≠ 0) :
    (s.size ≤ s.top → (djs_insert s newparent_ok newrank_ok).1.size = s.size * 2) ∧
    ∀ x, 1 ≤ x → x < s.top →
      (djs_insert s newparent_ok newrank_ok).1.parent x = s.parent x ∧
      (djs_insert s newparent_ok newrank_ok).1.rank x = s.rank x ∧
      ∃ t t1 r, djs_find s x = some (t, r) ∧
        djs_find (djs_insert s newparent_ok newrank_ok).1 x = some (t1, r) := by
  have hinv := (reachable_inv hs).1
  rcases insert_cases s newparent_ok newrank_ok with ⟨e, _⟩ | ⟨_, hp, hr, _, hsz⟩
  · rw [e] at hok; exact absurd rfl hok
  · refine ⟨fun hfull => ?_, fun x h1 h2 => ?_⟩
    · rcases hsz with ⟨h, _⟩ | ⟨_, _, _, h⟩
      · omega
      · exact h
    · have hne : x ≠ s.top := by omega
      refine ⟨by rw [hp, Function.update_noteq hne], by rw [hr, Function.update_noteq hne], ?_⟩
      obtain ⟨t, ht⟩ := find_returns_rep hinv x
      obtain ⟨t1, ht1⟩ := find_returns_rep (insert_inv hinv newparent_ok newrank_ok) x
      rw [insert_rep_old hinv _ _ h1 h2] at ht1
      exact ⟨t, t1, rep s x, ht, ht1⟩

/-- C20: in a reachable structure the parent of an id of `[1, top)` lies in `[1, top)`, every
such id reaches a root within fewer than `top` steps, a parent chain returns to its start only
at a root, and `djs_find` returns on every `x`, with a result in `[1, top)` (never `0`) when
`x` is in `[1, top)`. -/
theorem parent_forest_find_total (s : DisjointSet) (hs : Reachable s) :
    (∀ x, 1 ≤ x → x < s.top → 1 ≤ s.parent x ∧ s.parent x < s.top) ∧
    (∀ x, 1 ≤ x → x < s.top → ∃ k, k < s.top ∧ s.parent (s.parent^[k] x) = s.parent^[k] x) ∧
    (∀ x, 1 ≤ x → x < s.top → ∀ k, 0 < k → s.parent^[k] x = x → s.parent x = x) ∧
    (∀ x, ∃ s1 r, djs_find s x = some (s1, r) ∧ (1 ≤ x → x < s.top → 1 ≤ r ∧ r < s.top)) := by
  have hinv := (reachable_inv hs).1
  refine ⟨fun x h1 h2 => ⟨(hinv x h1 h2).1, (hinv x h1 h2).2.1⟩,
    fun x h1 h2 => exists_root hinv h1 h2, ?_, ?_⟩
  · intro x h1 h2 k hk hcyc
    by_contra hne
    have hv := hinv x h1 h2
    have h3 := hv.2.2 hne
    obtain ⟨j, rfl⟩ := Nat.exists_eq_succ_of_ne_zero (Nat.pos_iff_ne_zero.mp hk)
    rw [Function.iterate_succ_apply] at hcyc
    have h4 := rank_iterate_le hinv hv.1 hv.2.1 j
    rw [hcyc] at h4
    omega
  · intro x
    obtain ⟨t, ht⟩ := find_returns_rep hinv x
    exact ⟨t, rep s x, ht, fun h1 h2 => (rep_spec hinv h1 h2).1⟩

/-- C18: in a reachable structure the parent chain from an id `x` of `[1, top)` reaches its
root `rep s x` for the first time after `k` steps with `k ≤ rank[rep s x]`. -/
theorem rank_bounds_depth (s : DisjointSet) (hs : Reachable s) (x : Nat) (hx1 : 1 ≤ x)
    (hx2 : x < s.top) :
    s.parent (rep s x) = rep s x ∧
    ∃ k, k ≤ s.rank (rep s x) ∧ s.parent^[k] x = rep s x ∧
      ∀ j, j < k → s.parent^[j] x ≠ rep s x := by
  have hinv := (reachable_inv hs).1
  obtain ⟨_, hroot, k0, _, hk0⟩ := rep_spec hinv hx1 hx2
  refine ⟨hroot, ?_⟩
  classical
  have hex : ∃ k, s.parent^[k] x = rep s x := ⟨k0, hk0⟩
  refine ⟨Nat.find hex, ?_, Nat.find_spec hex, fun j hj => Nat.find_min hex hj⟩
  have hnonroot : ∀ m, m < Nat.find hex → s.parent (s.parent^[m] x) ≠ s.parent^[m] x := by
    intro m hm hfix
    exact Nat.find_min hex hm (rep_eq_of_reaches hinv hx1 hx2 rfl hfix).symm
  have hlt := rank_iterate_lt hinv hx1 hx2 (Nat.find hex) hnonroot
  have hge : ∀ j, j ≤ Nat.find hex → j ≤ s.rank (s.parent^[j] x) := by
    intro j
    induction j with
    | zero => intro _; exact Nat.zero_le _
    | succ j ih =>
      intro hj
      have h1 := ih (by omega)
      have h2 := hlt (j + 1) hj j (Nat.lt_succ_self j)
      omega
  have := hge (Nat.find hex) (le_refl _)
  rw [Nat.find_spec hex] at this
  exact this

/-- C17: on a reachable structure, for ids `x`, `y` of `[1, top)` with distinct roots
`rx = rep s x`, `ry = rep s y` (the values `djs_find` returns), `djs_merge` returns `0` and
puts the root of lower rank under the root of higher rank without changing their ranks; for
equal ranks it sets `parent[rx] = ry` and increases `rank[ry]` by one; and every other root
keeps its parent and its rank. -/
theorem union_by_rank (s : DisjointSet) (hs : Reachable s) (x y : Nat)
    (hx : 1 ≤ x ∧ x < s.top) (hy : 1 ≤ y ∧ y < s.top) (hne : rep s x ≠ rep s y) :
    (∀ z, ∃ t, djs_find s z = some (t, rep s z)) ∧
    ∃ s1, djs_merge s x y = some (s1, 0) ∧
      (s.rank (rep s y) < s.rank (rep s x) →
        s1.parent (rep s y) = rep s x ∧ s1.parent (rep s x) = rep s x ∧
        s1.rank (rep s x) = s.rank (rep s x) ∧ s1.rank (rep s y) = s.rank (rep s y)) ∧
      (s.rank (rep s x) < s.rank (rep s y) →
        s1.parent (rep s x) = rep s y ∧ s1.parent (rep s y) = rep s y ∧
        s1.rank (rep s x) = s.rank (rep s x) ∧ s1.rank (rep s y) = s.rank (rep s y)) ∧
      (s.rank (rep s x) = s.rank (rep s y) →
        s1.parent (rep s x) = rep s y ∧ s1.parent (rep s y) = rep s y ∧
        s1.rank (rep s x) = s.rank (rep s x) ∧ s1.rank (rep s y) = s.rank (rep s y) + 1) ∧
      (∀ r, 1 ≤ r → r < s.top → s.parent r = r → r ≠ rep s x → r ≠ rep s y →
        s1.parent r = r ∧ s1.rank r = s.rank r) := by
  have hinv := (reachable_inv hs).1
  refine ⟨fun z => find_returns_rep hinv z, ?_⟩
  obtain ⟨t, hc, hm⟩ := merge_detail hinv hx.1 hx.2 hy.1 hy.2
  obtain ⟨hxv, hxr, _⟩ := rep_spec hinv hx.1 hx.2
  obtain ⟨hyv, hyr, _⟩ := rep_spec hinv hy.1 hy.2
  have hxr2 := compressed_root hinv hc hxv.1 hxv.2 hxr
  have hyr2 := compressed_root hinv hc hyv.1 hyv.2 hyr
  have hrank : t.rank = s.rank := hc.1
  have hroots : ∀ r, 1 ≤ r → r < s.top → s.parent r = r → t.parent r = r :=
    fun r h1 h2 h3 => compressed_root hinv hc h1 h2 h3
  rw [hrank] at hm
  by_cases hgt : s.rank (rep s x) > s.rank (rep s y)
  · rw [if_pos hgt] at hm
    refine ⟨_, hm, ?_, ?_, ?_, ?_⟩
    · intro _
      refine ⟨Function.update_same _ _ _, ?_, by rw [← hrank], by rw [← hrank]⟩
      show Function.update t.parent (rep s y) (rep s x) (rep s x) = rep s x
      rw [Function.update_noteq hne]; exact hxr2
    · intro h; omega
    · intro h; omega
    · intro r h1 h2 h3 h4 h5
      refine ⟨?_, by rw [← hrank]⟩
      show Function.update t.parent (rep s y) (rep s x) r = r
      rw [Function.update_noteq h5]; exact hroots r h1 h2 h3
  · rw [if_neg hgt] at hm
    by_cases heq : s.rank (rep s x) = s.rank (rep s y)
    · rw [if_pos heq] at hm
      refine ⟨_, hm, ?_, ?_, ?_, ?_⟩
      · intro h; omega
      · intro h; omega
      · intro _
        refine ⟨Function.update_same _ _ _, ?_, ?_, ?_⟩
        · show Function.update t.parent (rep s x) (rep s y) (rep s y) = rep s y
          rw [Function.update_noteq (Ne.symm hne)]; exact hyr2
        · show Function.update s.rank (rep s y) _ (rep s x) = _
          rw [Function.update_noteq hne]
        · show Function.update s.rank (rep s y) _ (rep s y) = _
          rw [Function.update_same]
      · intro r h1 h2 h3 h4 h5
        constructor
        · show Function.update t.parent (rep s x) (rep s y) r = r
          rw [Function.update_noteq h4]; exact hroots r h1 h2 h3
        · show Function.update s.rank (rep s y) _ r = _
          rw [Function.update_noteq h5]
    · rw [if_neg heq] at hm
      refine ⟨_, hm, ?_, ?_, ?_, ?_⟩
      · intro h; omega
      · intro _
        refine ⟨Function.update_same _ _ _, ?_, by rw [← hrank], by rw [← hrank]⟩
        show Function.update t.parent (rep s x) (rep s y) (rep s y) = rep s y
        rw [Function.update_noteq (Ne.symm hne)]; exact hyr2
      · intro h; exact absurd h heq
      · intro r h1 h2 h3 h4 h5
        refine ⟨?_, by rw [← hrank]⟩
        show Function.update t.parent (rep s x) (rep s y) r = r
        rw [Function.update_noteq h4]; exact hroots r h1 h2 h3

/-! ## Further claims on `label_region_sparse.c` -/

theorem binsearch_loop_mids_bound (arr : List Nat) (v : Nat) :
    ∀ (fuel : Nat) (low high : Int), 0 ≤ low → high < arr.length →
      ∀ mid, mid ∈ binsearch_loop_mids arr v fuel low high →
        0 ≤ mid ∧ mid < arr.length ∧ low + high < 2 * arr.length := by
  intro fuel
  induction fuel with
  | zero => intro low high _ _ mid hm; simp [binsearch_loop_mids] at hm
  | succ fuel ih =>
    intro low high h0 hhigh mid hm
    by_cases hle : low ≤ high
    · have hmid : Int.tdiv (low + high) 2 = (low + high) / 2 :=
        Int.tdiv_eq_ediv (by omega) (by omega)
      simp only [binsearch_loop_mids, if_pos hle, hmid] at hm
      by_cases heq : arr.getD ((low + high) / 2).toNat 0 = v
      · rw [if_pos heq] at hm
        rw [List.mem_singleton.mp hm]
        omega
      · rw [if_neg heq] at hm
        by_cases hgt : arr.getD ((low + high) / 2).toNat 0 > v
        · rw [if_pos hgt] at hm
          rcases List.mem_cons.mp hm with e | e
          · rw [e]; omega
          · have := ih low ((low + high) / 2 - 1) h0 (by omega) mid e
            omega
        · rw [if_neg hgt] at hm
          rcases List.mem_cons.mp hm with e | e
          · rw [e]; omega
          · have := ih ((low + high) / 2 + 1) high (by omega) hhigh mid e
            omega
    · simp [binsearch_loop_mids, if_neg hle] at hm

theorem getD_take {l : List Nat} {i p : Nat} (hp : p < i) :
    (l.take i).getD p 0 = l.getD p 0 := by
  rw [List.getD_eq_getElem?_getD, List.getD_eq_getElem?_getD, List.getElem?_take_of_lt hp]

/-- C16: on a strictly ascending array (of at most `2 ^ 62` elements, so that it fits the
address space and `low + high` does not overflow) `binsearch` returns: a position `r` with
`0 ≤ r < size` and `arr[r] = v` when `v` occurs in the array, and `-1` when it does not; and
every `mid` at which the loop reads `arr[mid]` satisfies `0 ≤ mid < size`. -/
theorem binsearch_membership (arr : List Nat) (v : Nat) (hasc : arr.Pairwise (· < ·))
    (hlen : arr.length ≤ 2 ^ 62) :
    ∃ r, binsearch arr v arr.length = some r ∧
      (v ∈ arr → 0 ≤ r ∧ r < arr.length ∧ arr.getD r.toNat 0 = v) ∧
      (v ∉ arr → r = -1) ∧
      ∀ mid, mid ∈ binsearch_mids arr v arr.length → 0 ≤ mid ∧ mid < arr.length := by
  have hidx := asc_of_pairwise hasc
  obtain ⟨r, hr, hcase⟩ := binsearch_spec hidx (by omega) v
  have hmem : v ∈ arr ↔ ∃ p, p < arr.length ∧ arr.getD p 0 = v := by
    rw [List.mem_iff_getElem]
    constructor
    · rintro ⟨p, hp, e⟩
      exact ⟨p, hp, by rw [List.getD_eq_getElem _ 0 hp]; exact e⟩
    · rintro ⟨p, hp, e⟩
      exact ⟨p, hp, by rw [List.getD_eq_getElem _ 0 hp] at e; exact e⟩
  refine ⟨r, hr, ?_, ?_, ?_⟩
  · intro hv
    obtain ⟨p, hp, hpv⟩ := hmem.mp hv
    rcases hcase with ⟨_, h2⟩ | ⟨h1, h2, h3⟩
    · exact absurd hpv (h2 p hp)
    · exact ⟨h1, by omega, h3⟩
  · intro hv
    rcases hcase with ⟨h1, _⟩ | ⟨_, h2, h3⟩
    · exact h1
    · exact absurd (hmem.mpr ⟨_, h2, h3⟩) hv
  · intro mid hm
    unfold binsearch_mids at hm
    rw [high_init (by omega)] at hm
    have := binsearch_loop_mids_bound arr v _ 0 _ (le_refl _) (by omega) mid hm
    omega

/-- C14, amended: for a strictly ascending index list with all values below `2 ^ 63` and
strictly negative deltas, the search made at scan position `i` for a delta `d` returns, a
position it finds is below `i`, and the search over `indices[0, i)` alone returns the same
result. -/
theorem search_consults_processed (indices : List Nat) (deltas : List Int)
    (hasc : indices.Pairwise (· < ·)) (hlt : ∀ v, v ∈ indices → v < 2 ^ 63)
    (hd : ∀ d, d ∈ deltas → -2 ^ 63 ≤ d ∧ d < 0) (i : Nat) (hi : i < indices.length)
    (d : Int) (hdmem : d ∈ deltas) :
    ∃ r, binsearch indices (to_ulong (to_longlong (indices.getD i 0) + d)) indices.length =
        some r ∧
      (r ≠ -1 → 0 ≤ r ∧ r.toNat < i) ∧
      binsearch (indices.take i) (to_ulong (to_longlong (indices.getD i 0) + d)) i = some r := by
  have hpre := pre_of_pairwise hasc hlt hd
  rw [to_longlong_of_lt (hpre.2.1 i hi)]
  obtain ⟨r, hr, hcase⟩ := search_spec hpre.1 hpre.2.1 hi (hd d hdmem)
  have hlen : (indices.take i).length = i := by
    rw [List.length_take]; exact Nat.min_eq_left (le_of_lt hi)
  have htake := binsearch_spec (asc_of_pairwise (List.Pairwise.take hasc))
    (by rw [hlen]; have := asc_length_le hpre.1 hpre.2.1; omega)
    (to_ulong ((indices.getD i 0 : Int) + d))
  rw [hlen] at htake
  obtain ⟨r1, hr1, hcase1⟩ := htake
  refine ⟨r, hr, fun hne => ?_, ?_⟩
  · rcases hcase with ⟨h1, _⟩ | ⟨h1, h2, _⟩
    · exact absurd h1 hne
    · exact ⟨h1, h2⟩
  · rw [hr1]
    congr 1
    have hdb := hd d hdmem
    have hAi := hpre.2.1 i hi
    rcases hcase1 with ⟨h1, h2⟩ | ⟨h1, h2, h3⟩
    · rcases hcase with ⟨g1, _⟩ | ⟨g1, g2, g3⟩
      · rw [h1, g1]
      · exfalso
        apply h2 r.toNat g2
        rw [getD_take g2]
        have := hpre.2.1 r.toNat (by omega)
        unfold to_ulong
        omega
    · rw [getD_take h2] at h3
      have hAr := hpre.2.1 r1.toNat (by omega)
      have he : (indices.getD r1.toNat 0 : Int) = (indices.getD i 0 : Int) + d := by
        unfold to_ulong at h3
        omega
      rcases hcase with ⟨_, g2⟩ | ⟨g1, g2, g3⟩
      · exact absurd he (g2 r1.toNat (by omega))
      · have : r1.toNat = r.toNat :=
          asc_inj hpre.1 (by omega) (by omega) (by omega)
        omega

theorem scan_loop_prefix {indices : List Nat} {deltas : List Int} (hpre : Pre indices deltas)
    {heap : Allocator} (hheap : heap.NoFail) :
    ∀ (k i : Nat) (st : Scan), i + k ≤ indices.length → ScanInv indices deltas i st →
      ∃ st1, scan_loop indices deltas heap k i st = some (st1, none) ∧
        ScanInv indices deltas (i + k) st1 := by
  intro k
  induction k with
  | zero => intro i st _ hinv; exact ⟨st, rfl, hinv⟩
  | succ k ih =>
    intro i st hik hinv
    obtain ⟨st1, hstep, hinv1⟩ := scan_step_spec hpre hheap (by omega) hinv
    obtain ⟨st2, hloop, hinv2⟩ := ih (i + 1) st1 (by omega) hinv1
    have he : i + 1 + k = i + (k + 1) := by omega
    refine ⟨st2, ?_, by rw [← he]; exact hinv2⟩
    simp only [scan_loop, hstep]
    exact hloop

/-- C13, amended: for a strictly ascending index list (also the empty one) with all values
below `2 ^ 63` and strictly negative deltas, when no allocation fails the function returns `0`,
and at every scan position `i` every neighbour id collected in `hood` lies in `[1, top)` and
the merge loop runs to its end with every `djs_merge` returning `0`, so that the branch
`Illegal merging sets` is not taken. -/
theorem merge_failure_unreachable (indices : List Nat) (labels0 : Nat → Nat)
    (deltas : List Int) (heap : Allocator) (hasc : indices.Pairwise (· < ·))
    (hlt : ∀ v, v ∈ indices → v < 2 ^ 63) (hd : ∀ d, d ∈ deltas → -2 ^ 63 ≤ d ∧ d < 0)
    (hheap : heap.NoFail) :
    (∃ labels, label_region_sparse indices labels0 deltas heap = some (0, labels)) ∧
    ∃ sets, djs_create N_SETS heap.sets_ok heap.parent0 heap.rank0 = some sets ∧
      ∀ i, i < indices.length → ∃ st hood,
        scan_loop indices deltas heap i 0 { sets := sets, labels := labels0 } =
          some (st, none) ∧
        hood_loop indices st.labels indices.length (to_longlong (indices.getD i 0)) deltas [] =
          some hood ∧
        (∀ h, h ∈ hood → 1 ≤ h ∧ h < st.sets.top) ∧
        ∀ hood0 rest, hood = hood0 :: rest →
          ∃ sets1, merge_loop st.sets hood0 rest = some (sets1, 0) := by
  have hpre := pre_of_pairwise hasc hlt hd
  obtain ⟨sets, _, pk, hcreate, _, _, _, _, hrun⟩ := label_core hpre hheap labels0
  refine ⟨⟨_, hrun⟩, sets, hcreate, fun i hi => ?_⟩
  have hsets : sets = { parent := heap.parent0, rank := heap.rank0, top := 1, size := N_SETS } := by
    unfold djs_create at hcreate
    rw [hheap.1] at hcreate
    exact (Option.some.inj hcreate).symm
  obtain ⟨st, hscan, hinv⟩ := scan_loop_prefix hpre hheap i 0
    { sets := sets, labels := labels0 } (by omega)
    (by rw [hsets]; exact scan_inv_init indices deltas N_SETS _ _ labels0)
  rw [Nat.zero_add] at hinv
  obtain ⟨ps, hhood, hfound, _⟩ := hood_loop_spec hpre.1 hpre.2.1 hi st.labels deltas [] hpre.2.2
  rw [List.nil_append] at hhood
  have hvalid : ∀ h, h ∈ ps.map st.labels → 1 ≤ h ∧ h < st.sets.top := by
    intro h hh
    obtain ⟨p, hp, hpl⟩ := List.mem_map.mp hh
    rw [← hpl]
    exact hinv.2.2.1 p (hfound p hp).1
  refine ⟨st, ps.map st.labels, hscan, ?_, hvalid, ?_⟩
  · rw [to_longlong_of_lt (hpre.2.1 i hi)]; exact hhood
  · intro hood0 rest he
    have h0 := hvalid hood0 (by rw [he]; exact List.mem_cons_self _ _)
    obtain ⟨s1, hloop, _⟩ := merge_loop_spec hood0 rest st.sets hinv.1 h0.1 h0.2
      (fun h hh => hvalid h (by rw [he]; exact List.mem_cons_of_mem _ hh))
    exact ⟨s1, hloop⟩

/-! ## Witnesses and failing inputs of the further claims -/

/-- C11 at `chain_sets`, which holds the four ids `1..4` in one set with the chain
`1 → 2 → 4` and is full (`top = size = 5`): the next `djs_insert` takes the growth branch,
returns the id `5` and doubles `size` to `10`, and `djs_find(1)` returns `4` before and
after. -/
theorem growth_preserves_sets_witness :
    Reachable chain_sets ∧
    (chain_sets.top = 5 ∧ chain_sets.size = 5 ∧ chain_sets.size ≤ chain_sets.top ∧
      chain_sets.parent 1 = 2 ∧ chain_sets.parent 2 = 4 ∧ chain_sets.rank 4 = 2) ∧
    ((djs_insert chain_sets true true).2 = 5 ∧ (djs_insert chain_sets true true).1.size = 10 ∧
      (djs_insert chain_sets true true).1.top = 6) ∧
    ((djs_find chain_sets 1).map Prod.snd = some 4 ∧
      (djs_find (djs_insert chain_sets true true).1 1).map Prod.snd = some 4) ∧
    (djs_insert chain_sets true true).2 ≠ 0 ∧
    (chain_sets.size ≤ chain_sets.top →
      (djs_insert chain_sets true true).1.size = chain_sets.size * 2) ∧
    ∀ x, 1 ≤ x → x < chain_sets.top →
      (djs_insert chain_sets true true).1.parent x = chain_sets.parent x ∧
      (djs_insert chain_sets true true).1.rank x = chain_sets.rank x ∧
      ∃ t t1 r, djs_find chain_sets x = some (t, r) ∧
        djs_find (djs_insert chain_sets true true).1 x = some (t1, r) :=
  ⟨chain_sets_reachable, by decide, by decide, by decide, by decide,
    growth_preserves_sets chain_sets chain_sets_reachable true true (by decide)⟩

/-- C12, the code at the failing input: on the structure that `djs_create(1)` returns, with
both blocks one word long, the first `djs_insert` has to grow the arrays.  When `realloc`
succeeds for `parent` and fails for `rank`, the call returns `0` and leaves `top` and `size` as
they were, but `set->parent` is not replaced by the answer of `realloc`: if the block was
moved, `set->parent` is the address of a freed block; if it was resized in place, the
`parent` block has two words and the `rank` block one. -/
theorem insert_growth_failure_not_atomic :
    (djs_insert { parent := fun _ => 0, rank := fun _ => 0, top := 1, size := 1 }
      Realloc.moved.ok Realloc.null.ok).2 = 0 ∧
    (djs_insert { parent := fun _ => 0, rank := fun _ => 0, top := 1, size := 1 }
      Realloc.moved.ok Realloc.null.ok).1.top = 1 ∧
    (djs_insert { parent := fun _ => 0, rank := fun _ => 0, top := 1, size := 1 }
      Realloc.moved.ok Realloc.null.ok).1.size = 1 ∧
    djs_insert_blocks { parent := fun _ => 0, rank := fun _ => 0, top := 1, size := 1 }
      { parent_len := 1, rank_len := 1, parent_live := true, rank_live := true }
      Realloc.moved Realloc.null =
      { parent_len := 1, rank_len := 1, parent_live := false, rank_live := true } ∧
    djs_insert_blocks { parent := fun _ => 0, rank := fun _ => 0, top := 1, size := 1 }
      { parent_len := 1, rank_len := 1, parent_live := true, rank_live := true }
      Realloc.same Realloc.null =
      { parent_len := 2, rank_len := 1, parent_live := true, rank_live := true } := by
  decide

/-- C19, the code at the failing input: on the structure that `djs_create(0)` returns, an
insert whose reallocations succeed doubles the capacity `0` to `0`, writes `parent[1]` and
`rank[1]`, returns the id `1`, and leaves `top = 2` above `size = 0`. -/
theorem insert_beyond_zero_capacity :
    (djs_create 0 true (fun _ => 0) (fun _ => 0)).map (fun s =>
      ((djs_insert s true true).2, (djs_insert s true true).1.parent 1,
        (djs_insert s true true).1.top, (djs_insert s true true).1.size)) =
      some (1, 1, 2, 0) := by
  decide

/-- C20 at `chain_sets`, where the ids `1`, `2` and `3` are not roots: the parent links
`1 → 2 → 4` and `3 → 4` form a tree below the root `4`, and `djs_find` returns `4` for each
of the four ids. -/
theorem parent_forest_find_total_witness :
    Reachable chain_sets ∧
    (chain_sets.top = 5 ∧ chain_sets.parent 1 = 2 ∧ chain_sets.parent 2 = 4 ∧
      chain_sets.parent 3 = 4 ∧ chain_sets.parent 4 = 4) ∧
    ([1, 2, 3, 4].map fun x => (djs_find chain_sets x).map Prod.snd) =
      [some 4, some 4, some 4, some 4] ∧
    (∀ x, 1 ≤ x → x < chain_sets.top →
      1 ≤ chain_sets.parent x ∧ chain_sets.parent x < chain_sets.top) ∧
    (∀ x, 1 ≤ x → x < chain_sets.top →
      ∃ k, k < chain_sets.top ∧
        chain_sets.parent (chain_sets.parent^[k] x) = chain_sets.parent^[k] x) ∧
    (∀ x, 1 ≤ x → x < chain_sets.top → ∀ k, 0 < k → chain_sets.parent^[k] x = x →
      chain_sets.parent x = x) ∧
    (∀ x, ∃ s1 r, djs_find chain_sets x = some (s1, r) ∧
      (1 ≤ x → x < chain_sets.top → 1 ≤ r ∧ r < chain_sets.top)) :=
  ⟨chain_sets_reachable, by decide, by decide,
    parent_forest_find_total chain_sets chain_sets_reachable⟩

/-- C18 at the id `1` of `chain_sets`: its root is `4`, of rank `2`, and the chain
`1 → 2 → 4` from `1` to the root has exactly two steps. -/
theorem rank_bounds_depth_witness :
    Reachable chain_sets ∧
    (rep chain_sets 1 = 4 ∧ chain_sets.rank 4 = 2 ∧ chain_sets.parent 1 = 2 ∧
      chain_sets.parent 2 = 4 ∧ chain_sets.parent 4 = 4) ∧
    1 ≤ 1 ∧ 1 < chain_sets.top ∧
    chain_sets.parent (rep chain_sets 1) = rep chain_sets 1 ∧
    ∃ k, k ≤ chain_sets.rank (rep chain_sets 1) ∧ chain_sets.parent^[k] 1 = rep chain_sets 1 ∧
      ∀ j, j < k → chain_sets.parent^[j] 1 ≠ rep chain_sets 1 :=
  ⟨chain_sets_reachable, by decide, by decide, by decide,
    rank_bounds_depth chain_sets chain_sets_reachable 1 (by decide) (by decide)⟩

/-- C17 at the two ids of `two_sets`, which are roots of equal rank. -/
theorem union_by_rank_witness :
    Reachable two_sets ∧ (1 ≤ 1 ∧ 1 < two_sets.top) ∧ (1 ≤ 2 ∧ 2 < two_sets.top) ∧
    rep two_sets 1 ≠ rep two_sets 2 ∧
    (∀ z, ∃ t, djs_find two_sets z = some (t, rep two_sets z)) ∧
    ∃ s1, djs_merge two_sets 1 2 = some (s1, 0) ∧
      (two_sets.rank (rep two_sets 2) < two_sets.rank (rep two_sets 1) →
        s1.parent (rep two_sets 2) = rep two_sets 1 ∧
        s1.parent (rep two_sets 1) = rep two_sets 1 ∧
        s1.rank (rep two_sets 1) = two_sets.rank (rep two_sets 1) ∧
        s1.rank (rep two_sets 2) = two_sets.rank (rep two_sets 2)) ∧
      (two_sets.rank (rep two_sets 1) < two_sets.rank (rep two_sets 2) →
        s1.parent (rep two_sets 1) = rep two_sets 2 ∧
        s1.parent (rep two_sets 2) = rep two_sets 2 ∧
        s1.rank (rep two_sets 1) = two_sets.rank (rep two_sets 1) ∧
        s1.rank (rep two_sets 2) = two_sets.rank (rep two_sets 2)) ∧
      (two_sets.rank (rep two_sets 1) = two_sets.rank (rep two_sets 2) →
        s1.parent (rep two_sets 1) = rep two_sets 2 ∧
        s1.parent (rep two_sets 2) = rep two_sets 2 ∧
        s1.rank (rep two_sets 1) = two_sets.rank (rep two_sets 1) ∧
        s1.rank (rep two_sets 2) = two_sets.rank (rep two_sets 2) + 1) ∧
      (∀ r, 1 ≤ r → r < two_sets.top → two_sets.parent r = r → r ≠ rep two_sets 1 →
        r ≠ rep two_sets 2 → s1.parent r = r ∧ s1.rank r = two_sets.rank r) :=
  ⟨two_sets_reachable, by decide, by decide, by decide,
    union_by_rank two_sets two_sets_reachable 1 2 (by decide) (by decide) (by decide)⟩

/-- C16 on the index list of the 1D scenario, searching for `5`. -/
theorem binsearch_membership_witness :
    line_indices.Pairwise (· < ·) ∧ line_indices.length ≤ 2 ^ 62 ∧
    ∃ r, binsearch line_indices 5 line_indices.length = some r ∧
      (5 ∈ line_indices → 0 ≤ r ∧ r < line_indices.length ∧ line_indices.getD r.toNat 0 = 5) ∧
      (5 ∉ line_indices → r = -1) ∧
      ∀ mid, mid ∈ binsearch_mids line_indices 5 line_indices.length →
        0 ≤ mid ∧ mid < line_indices.length :=
  ⟨line_indices_asc, by decide,
    binsearch_membership line_indices 5 line_indices_asc (by decide)⟩

/-- C14 as stated fails for a delta `0`: with indices `[5]` the search at scan position `0`
passes the test `index >= deltas[j]` and finds position `0`, which is not below `0`, while
the search over the empty prefix `indices[0, 0)` returns `-1`. -/
theorem zero_delta_finds_current_position :
    (∀ d, d ∈ [(0 : Int)] → d ≤ 0) ∧ to_longlong 5 ≥ 0 ∧
    binsearch [5] (to_ulong (to_longlong 5 + 0)) 1 = some 0 ∧
    binsearch ([5].take 0) (to_ulong (to_longlong 5 + 0)) 0 = some (-1) := by
  decide

/-- C14, amended, at scan position `1` of the 1D scenario, where the search for the
candidate `1 - 1 = 0` finds position `0`, which is below `1`. -/
theorem search_consults_processed_witness :
    line_indices.Pairwise (· < ·) ∧ (∀ v, v ∈ line_indices → v < 2 ^ 63) ∧
    (∀ d, d ∈ line_deltas → -2 ^ 63 ≤ d ∧ d < 0) ∧ 1 < line_indices.length ∧
    -1 ∈ line_deltas ∧
    binsearch line_indices (to_ulong (to_longlong (line_indices.getD 1 0) + -1))
      line_indices.length = some 0 ∧
    ∃ r, binsearch line_indices (to_ulong (to_longlong (line_indices.getD 1 0) + -1))
        line_indices.length = some r ∧
      (r ≠ -1 → 0 ≤ r ∧ r.toNat < 1) ∧
      binsearch (line_indices.take 1) (to_ulong (to_longlong (line_indices.getD 1 0) + -1)) 1 =
        some r :=
  ⟨line_indices_asc, line_indices_small, line_deltas_negative, by decide, by decide, by decide,
    search_consults_processed line_indices line_deltas line_indices_asc line_indices_small
      line_deltas_negative 1 (by decide) (-1) (by decide)⟩

/-- C13 as stated fails for deltas `≤ 0`: with indices `[5]` and deltas `[0, 0]` both
searches at scan position `0` find position `0` itself, `hood` holds the unwritten
`labels[0]` twice, no id has been inserted, `djs_merge` returns `1`, and the function leaves
through the branch `Illegal merging sets` with `-1`. -/
theorem zero_deltas_reach_illegal_merge :
    [5].Pairwise (· < ·) ∧ (∀ d, d ∈ [(0 : Int), 0] → d ≤ 0) ∧
    hood_loop [5] (fun _ => 0) 1 (to_longlong 5) [0, 0] [] = some [0, 0] ∧
    (djs_create N_SETS true (fun _ => 0) (fun _ => 0)).bind (fun sets =>
      (djs_merge sets 0 0).map fun r => (sets.top, r.2)) = some (1, 1) ∧
    label_region_sparse [5] (fun _ => 0) [0, 0] (Allocator.plenty 0) = some (-1, [0]) := by
  decide

/-- C13, amended, on the three cells `corner_indices` with the deltas `grid_deltas`: the
cells at positions `0` and `1` have no neighbour and get the ids `1` and `2`; at position `2`
the search finds both, `hood` is `[2, 1]`, and `merge_loop` calls `djs_merge(2, 1)` on two
valid ids of distinct sets (`top = 3`, roots `1` and `2`), which returns `0` and joins the
two sets under the root `1`. -/
theorem merge_failure_unreachable_witness :
    corner_indices.Pairwise (· < ·) ∧ (∀ v, v ∈ corner_indices → v < 2 ^ 63) ∧
    (∀ d, d ∈ grid_deltas → -2 ^ 63 ≤ d ∧ d < 0) ∧ (Allocator.plenty 0).NoFail ∧
    ((djs_create N_SETS true (fun _ => 0) (fun _ => 0)).bind fun sets =>
      (scan_loop corner_indices grid_deltas (Allocator.plenty 0) 2 0
        { sets := sets, labels := fun _ => 0 }).bind fun r =>
      hood_loop corner_indices r.1.labels corner_indices.length
        (to_longlong (corner_indices.getD 2 0)) grid_deltas []) = some [2, 1] ∧
    ((djs_create N_SETS true (fun _ => 0) (fun _ => 0)).bind fun sets =>
      (scan_loop corner_indices grid_deltas (Allocator.plenty 0) 2 0
        { sets := sets, labels := fun _ => 0 }).map fun r =>
      (r.1.sets.top, rep r.1.sets 1, rep r.1.sets 2)) = some (3, 1, 2) ∧
    ((djs_create N_SETS true (fun _ => 0) (fun _ => 0)).bind fun sets =>
      (scan_loop corner_indices grid_deltas (Allocator.plenty 0) 2 0
        { sets := sets, labels := fun _ => 0 }).bind fun r =>
      (merge_loop r.1.sets 2 [1]).map fun m => (m.2, rep m.1 1, rep m.1 2)) =
        some ((0 : Int), 1, 1) ∧
    (∃ labels, label_region_sparse corner_indices (fun _ => 0) grid_deltas (Allocator.plenty 0) =
      some (0, labels)) ∧
    ∃ sets, djs_create N_SETS (Allocator.plenty 0).sets_ok (Allocator.plenty 0).parent0
        (Allocator.plenty 0).rank0 = some sets ∧
      ∀ i, i < corner_indices.length → ∃ st hood,
        scan_loop corner_indices grid_deltas (Allocator.plenty 0) i 0
          { sets := sets, labels := fun _ => 0 } = some (st, none) ∧
        hood_loop corner_indices st.labels corner_indices.length
          (to_longlong (corner_indices.getD i 0)) grid_deltas [] = some hood ∧
        (∀ h, h ∈ hood → 1 ≤ h ∧ h < st.sets.top) ∧
        ∀ hood0 rest, hood = hood0 :: rest →
          ∃ sets1, merge_loop st.sets hood0 rest = some (sets1, 0) :=
  ⟨corner_indices_asc, corner_indices_small, grid_deltas_negative, plenty_noFail 0, by decide,
    by decide, by decide,
    merge_failure_unreachable corner_indices (fun _ => 0) grid_deltas (Allocator.plenty 0)
      corner_indices_asc corner_indices_small grid_deltas_negative (plenty_noFail 0)⟩

/-- C15, the code at the failing input: with indices `[5, 2 ^ 64 - 5]` and the delta `-10`,
whose magnitude exceeds `indices[0] = 5`, the test `index >= deltas[j]` holds (`5 >= -10`),
the candidate `5 - 10` becomes `2 ^ 64 - 5` as an `slr_ulong`, `binsearch` finds it at
position `1`, and `labels[1]` is recorded as a neighbour of position `0`.  With a `labels`
buffer that holds ones the function returns `0` with the same label for the two positions,
which no delta links. -/
theorem wrapped_candidate_is_recorded :
    (10 : Int) > 5 ∧ to_longlong 5 ≥ -10 ∧
    to_ulong (to_longlong 5 + -10) = 18446744073709551611 ∧
    binsearch [5, 18446744073709551611] (to_ulong (to_longlong 5 + -10)) 2 = some 1 ∧
    hood_loop [5, 18446744073709551611] (fun p => 100 + p) 2 (to_longlong 5) [-10] [] =
      some [101] ∧
    label_region_sparse [5, 18446744073709551611] (fun _ => 1) [-10] (Allocator.plenty 0) =
      some (0, [1, 1]) := by
  decide

end Sparseblob
